import Mathlib

/-!
# NEST kernel: target table, in-memory recording backend, SION logger, erfc gain

A shallow embedding of

* `nestkernel/target_table.cpp` (marker constants, `TargetTable::initialize`,
  `finalize`, `prepare`),
* `nestkernel/recording_backend_memory.cpp` (`DeviceData` and the backend's
  `enroll` / `write`),
* `nestkernel/sion_logger.cpp` (the two `SIONLogger::write` overloads and
  `finalize`),
* `models/erfc_neuron.h` (`gainfunction_erfc::operator()`),

followed by the properties proved about them.
-/

namespace nest

/-! ## Generic `std::vector` helpers -/

/-- `std::vector::resize(n)`: keep the first `n` elements, and when the vector is
shorter than `n` append value-initialised elements `dflt` up to length `n`. -/
def resize {β : Type} (v : List β) (n : Nat) (dflt : β) : List β :=
  v.take n ++ List.replicate (n - v.length) dflt

/-- `std::vector::clear()`: the vector has no elements afterwards. -/
def clear {β : Type} (_v : List β) : List β := []

/-! ## `target_table.cpp` -/

namespace TargetData

/-- `const unsigned int nest::TargetData::complete_marker = 1;` -/
def complete_marker : Nat := 1

/-- `const unsigned int nest::TargetData::end_marker = 2;` -/
def end_marker : Nat := 2

/-- `const unsigned int nest::TargetData::invalid_marker = 3;` -/
def invalid_marker : Nat := 3

end TargetData

/-- The member `targets_` of `nest::TargetTable`, of type
`std::vector< std::vector< std::vector< Target > >* >`: one owning pointer per
thread to that thread's partition, a vector of target sequences (slots), one per
local neuron. `none` is a null pointer. The element type `α` of a slot stands for
`Target`, whose declaration (`target_table.h`) is not part of the sources. -/
structure TargetTable (α : Type) where
  targets_ : List (Option (List (List α)))
  deriving DecidableEq, Repr

/-- The constructor `TargetTable::TargetTable()`: its body is empty and `targets_`
is default-constructed, i.e. an empty vector. -/
def TargetTable.fresh {α : Type} : TargetTable α := ⟨[]⟩

/-- `TargetTable::initialize()`, with `num_threads` the value of
`kernel().vp_manager.get_num_threads()`:
```
targets_.resize( num_threads );
for( thread tid = 0; tid < num_threads; ++tid)
  targets_[ tid ] = new std::vector< std::vector< Target > >( 0, ... );
```
-/
def TargetTable.initialize {α : Type} (num_threads : Nat) (t : TargetTable α) :
    TargetTable α :=
  ⟨(List.range num_threads).foldl (fun ts tid => ts.set tid (some []))
    (resize t.targets_ num_threads none)⟩

/-- `TargetTable::finalize()`: every partition is deleted, then
`targets_.clear()`. Deleting the pointees does not change the vector of
pointers, which is cleared right after. -/
def TargetTable.finalize {α : Type} (t : TargetTable α) : TargetTable α :=
  ⟨clear t.targets_⟩

/-- `TargetTable::prepare( tid )`, with `max_num_local_nodes` the value of
`kernel().node_manager.get_max_num_local_nodes()`:
`targets_[ tid ]->resize( max_num_local_nodes )`.
Indexing `targets_` out of range or dereferencing a null pointer is undefined
behaviour in the source; the embedding returns `none` there. -/
def TargetTable.prepare {α : Type} (max_num_local_nodes : Nat) (tid : Nat)
    (t : TargetTable α) : Option (TargetTable α) :=
  match t.targets_[tid]? with
  | some (some part) =>
      some ⟨t.targets_.set tid (some (resize part max_num_local_nodes []))⟩
  | _ => none

/-- Number of slots the partition of thread `tid` holds (0 when the thread has no
partition). -/
def TargetTable.num_slots {α : Type} (t : TargetTable α) (tid : Nat) : Nat :=
  match t.targets_[tid]? with
  | some (some part) => part.length
  | _ => 0

/-- The target sequence stored for local neuron `i` of thread `tid`:
`( *targets_[ tid ] )[ i ]`, `none` when there is no such slot. -/
def TargetTable.slot {α : Type} (t : TargetTable α) (tid i : Nat) : Option (List α) :=
  match t.targets_[tid]? with
  | some (some part) => part[i]?
  | _ => none

/-- Modelled from the spec: the declaration of `Target` (`target_table.h`) is not
among the sources. Spec, data model: "Target: {rank, thread, synapse_type,
index}". -/
structure Target where
  rank : Nat
  thread : Nat
  synapse_type : Nat
  index : Nat
  deriving DecidableEq, Repr

/-- One stored entry of a slot in the spec-level table: a target together with the
synapse type it was registered under. -/
abbrev Entry := Nat × Target

/-- Errors of the table's insertion path (spec, error handling design). -/
inductive TableError where
  | RangeError
  deriving DecidableEq, Repr

/-- Modelled from the spec: `add_target` is defined in `target_table.h`, which is
not among the sources. Spec 4.1: "`add_target(thread, local_neuron_id,
synapse_type, target)`: amortized O(1) append, touching only the calling
thread's own partition. Fails with a RangeError if `local_neuron_id` lies
outside the dimensioned range". A thread without a partition has an empty
dimensioned range. -/
def TargetTable.add_target (t : TargetTable Entry)
    (thread local_neuron_id synapse_type : Nat) (target : Target) :
    Except TableError (TargetTable Entry) :=
  match t.targets_[thread]? with
  | some (some part) =>
      match part[local_neuron_id]? with
      | some slot =>
          .ok ⟨t.targets_.set thread
            (some (part.set local_neuron_id (slot ++ [(synapse_type, target)])))⟩
      | none => .error .RangeError
  | _ => .error .RangeError

/-- Modelled from the spec: `get_targets` is defined in `target_table.h`, which is
not among the sources. Spec 4.1: "`get_targets(thread, local_neuron_id)`:
returns a read-only view over the synapse-type-partitioned target sequences".
The view is the slot's sequence of entries; `none` outside the dimensioned
range. -/
def TargetTable.get_targets (t : TargetTable Entry) (thread local_neuron_id : Nat) :
    Option (List Entry) :=
  t.slot thread local_neuron_id

/-- The target sequence a view holds for one synapse type. -/
def targets_of_type (view : List Entry) (synapse_type : Nat) : List Target :=
  view.filterMap (fun e => if e.1 = synapse_type then some e.2 else none)

/-- One `add_target` call. -/
structure AddCall where
  thread : Nat
  local_neuron_id : Nat
  synapse_type : Nat
  target : Target
  deriving DecidableEq, Repr

/-- A sequence of `add_target` calls, run in order; the first failing call's error
is returned. -/
def add_targets : List AddCall → TargetTable Entry → Except TableError (TargetTable Entry)
  | [], t => .ok t
  | c :: cs, t =>
      match t.add_target c.thread c.local_neuron_id c.synapse_type c.target with
      | .ok t1 => add_targets cs t1
      | .error e => .error e

/-- A sequence of `prepare` calls `(tid, max_num_local_nodes)`, run in order. -/
def prepares {α : Type} : List (Nat × Nat) → TargetTable α → Option (TargetTable α)
  | [], t => some t
  | p :: ps, t =>
      match TargetTable.prepare p.2 p.1 t with
      | some t1 => prepares ps t1
      | none => none

/-- The entries a call sequence registers for `(thread, local_neuron_id)`, in call
order. -/
def added (calls : List AddCall) (thread local_neuron_id : Nat) : List Entry :=
  calls.filterMap (fun c =>
    if c.thread = thread ∧ c.local_neuron_id = local_neuron_id
    then some (c.synapse_type, c.target) else none)

/-! ## `recording_backend_memory.cpp` -/

/-- What the recording code reads of an `Event`: `get_sender_gid()`,
`get_stamp().get_steps()`, `get_stamp().get_ms()` and `get_offset()`. The type `D`
stands for `double`. -/
structure Event (D : Type) where
  sender_gid : Nat
  stamp_steps : Int
  stamp_ms : D
  offset : D
  deriving DecidableEq, Repr

/-- Exceptions of the kernel thrown by the embedded code. -/
inductive KernelException where
  | BadProperty (msg : String)
  deriving DecidableEq, Repr

/-- The members of `RecordingBackendMemory::DeviceData`. -/
structure DeviceData (D : Type) where
  time_in_steps_ : Bool
  senders_ : List Nat
  times_ms_ : List D
  times_steps_ : List Int
  times_offset_ : List D
  double_value_names_ : List String
  double_values_ : List (List D)
  long_value_names_ : List String
  long_values_ : List (List Int)
  deriving DecidableEq, Repr

/-- `DeviceData::DeviceData()`: `time_in_steps_( false )`, every vector empty. -/
def DeviceData.new {D : Type} : DeviceData D :=
  ⟨false, [], [], [], [], [], [], [], []⟩

/-- `DeviceData::set_value_names`: the names are stored and the value columns
resized to the number of names. -/
def DeviceData.set_value_names {D : Type} (dd : DeviceData D)
    (double_value_names long_value_names : List String) : DeviceData D :=
  { dd with
    double_value_names_ := double_value_names
    double_values_ := resize dd.double_values_ double_value_names.length []
    long_value_names_ := long_value_names
    long_values_ := resize dd.long_values_ long_value_names.length [] }

/-- The loop `for ( size_t i = 0; i < values.size(); ++i )
columns[ i ].push_back( values[ i ] );` of `DeviceData::push_back`. Indexing
`columns` out of range is undefined behaviour in the source; the embedding
returns `none` there. -/
def push_values {β : Type} (columns : List (List β)) (values : List β) :
    Option (List (List β)) :=
  (List.range values.length).foldlM
    (fun cols i =>
      match cols[i]?, values[i]? with
      | some col, some v => some (cols.set i (col ++ [v]))
      | _, _ => none)
    columns

/-- `DeviceData::push_back( event, double_values, long_values )`. -/
def DeviceData.push_back {D : Type} [Sub D] (dd : DeviceData D) (event : Event D)
    (double_values : List D) (long_values : List Int) : Option (DeviceData D) :=
  let dd1 := { dd with senders_ := dd.senders_ ++ [event.sender_gid] }
  let dd2 :=
    if dd1.time_in_steps_ then
      { dd1 with
        times_steps_ := dd1.times_steps_ ++ [event.stamp_steps]
        times_offset_ := dd1.times_offset_ ++ [event.offset] }
    else
      { dd1 with times_ms_ := dd1.times_ms_ ++ [event.stamp_ms - event.offset] }
  match push_values dd2.double_values_ double_values with
  | none => none
  | some dvs =>
    match push_values dd2.long_values_ long_values with
    | none => none
    | some lvs => some { dd2 with double_values_ := dvs, long_values_ := lvs }

/-- The loop `for ( size_t i = 0; i < columns.size(); ++i ) columns[ i ].clear();`
of `DeviceData::clear`. -/
def clear_columns {β : Type} (columns : List (List β)) : List (List β) :=
  (List.range columns.length).foldl (fun cols i => cols.set i (clear (cols.getD i [])))
    columns

/-- `DeviceData::clear()`. -/
def DeviceData.clear {D : Type} (dd : DeviceData D) : DeviceData D :=
  { dd with
    senders_ := nest.clear dd.senders_
    times_ms_ := nest.clear dd.times_ms_
    times_steps_ := nest.clear dd.times_steps_
    times_offset_ := nest.clear dd.times_offset_
    double_values_ := clear_columns dd.double_values_
    long_values_ := clear_columns dd.long_values_ }

/-- The entries of a status dictionary that `DeviceData::set_status` looks up:
`names::time_in_steps` (read as `bool`) and `names::n_events` (read as `long`),
each present or absent. -/
structure StatusDict where
  time_in_steps : Option Bool
  n_events : Option Int
  deriving DecidableEq, Repr

/-- The values of the 64-bit type `long`. -/
def is_long (v : Int) : Prop := -2 ^ 63 ≤ v ∧ v < 2 ^ 63

instance (v : Int) : Decidable (is_long v) := by unfold is_long; infer_instance

/-- Conversion of a `long` to the 64-bit unsigned `size_t`, as in the assignment
made by `updateValue< long >( d, names::n_events, n_events )` to
`size_t n_events`. -/
def long_to_size_t (v : Int) : Nat := (v % 2 ^ 64).toNat

/-- `DeviceData::set_status( d )`. `updateValue< T >( d, name, x )` (SLI's
`dictutils.h`) assigns the dictionary's entry `name` to `x` and returns true when
the entry is present, and returns false leaving `x` alone otherwise. The result
pairs the device data as the call leaves it, also when it throws, with the
outcome. -/
def DeviceData.set_status {D : Type} (dd : DeviceData D) (d : StatusDict) :
    DeviceData D × Except KernelException Unit :=
  let dd1 :=
    match d.time_in_steps with
    | some b => { dd with time_in_steps_ := b }
    | none => dd
  match d.n_events with
  | some v =>
    let n_events : Nat := long_to_size_t v
    if n_events ≠ 0 then
      (dd1, .error (.BadProperty
        "Property n_events can only be set to 0 (which clears all stored events)."))
    else
      (dd1.clear, .ok ())
  | none => (dd1, .ok ())

/-- `std::map< index, V >::find`, the map held as a list of key-value pairs. -/
def map_find {V : Type} : List (Nat × V) → Nat → Option V
  | [], _ => none
  | (k, v) :: m, key => if k = key then some v else map_find m key

/-- Assignment through the iterator returned by a successful `find`: the value
stored under `key` is replaced. -/
def map_assign {V : Type} : List (Nat × V) → Nat → V → List (Nat × V)
  | [], _, _ => []
  | (k, v) :: m, key, x => if k = key then (k, x) :: m else (k, v) :: map_assign m key x

/-- `std::map::insert( std::make_pair( key, x ) )` for a key that is not present. -/
def map_insert {V : Type} (m : List (Nat × V)) (key : Nat) (x : V) : List (Nat × V) :=
  m ++ [(key, x)]

/-- The member `device_data_` of `RecordingBackendMemory`: one map from device gid
to `DeviceData` per thread. -/
structure RecordingBackendMemory (D : Type) where
  device_data_ : List (List (Nat × DeviceData D))
  deriving DecidableEq, Repr

/-- The device data enrolled for device `gid` on thread `t`, if any. -/
def RecordingBackendMemory.device {D : Type} (b : RecordingBackendMemory D) (t gid : Nat) :
    Option (DeviceData D) :=
  match b.device_data_[t]? with
  | some m => map_find m gid
  | none => none

/-- `RecordingBackendMemory::enroll( device )`, the device given by its thread `t`
and its `gid`. Indexing `device_data_` out of range is undefined behaviour in the
source; the embedding returns `none` there. -/
def RecordingBackendMemory.enroll {D : Type} (b : RecordingBackendMemory D) (t gid : Nat) :
    Option (RecordingBackendMemory D) :=
  match b.device_data_[t]? with
  | none => none
  | some m =>
    match map_find m gid with
    | none => some ⟨b.device_data_.set t (map_insert m gid DeviceData.new)⟩
    | some _ => some b

/-- `RecordingBackendMemory::write( device, event, double_values, long_values )`,
the device given by its thread `t` and its `gid`. -/
def RecordingBackendMemory.write {D : Type} [Sub D] (b : RecordingBackendMemory D)
    (t gid : Nat) (event : Event D) (double_values : List D) (long_values : List Int) :
    Option (RecordingBackendMemory D) :=
  match b.device_data_[t]? with
  | none => none
  | some m =>
    match map_find m gid with
    | none => some b
    | some dd =>
      match dd.push_back event double_values long_values with
      | none => none
      | some dd1 => some ⟨b.device_data_.set t (map_assign m gid dd1)⟩

/-- A sample backend state: two threads; on thread 0 device 5 records one double
value per event and holds one event, device 6 holds none; thread 1 has device 9. -/
def sample_backend : RecordingBackendMemory Int :=
  ⟨[[(5, ⟨false, [3], [12], [], [], ["V_m"], [[-70]], [], []⟩), (6, DeviceData.new)],
    [(9, DeviceData.new)]]⟩

/-- A sample event: sender 42, stamp of 20 steps or 2 ms, no offset. -/
def sample_event : Event Int := ⟨42, 20, 2, 0⟩

/-! ## `sion_logger.cpp` -/

/-- One byte of a buffer or file. -/
abbrev Byte := UInt8

/-- How values are laid out in memory: `int_bytes x` are the `sizeof( int ) = 4`
bytes of an `int`, `double_bytes x` the `sizeof( double ) = 8` bytes of a
`double`. Byte order and the format of `double` are left open. -/
structure ObjectRepr (D : Type) where
  int_bytes : Int → List Byte
  double_bytes : D → List Byte
  int_size : ∀ x, (int_bytes x).length = 4
  double_size : ∀ x, (double_bytes x).length = 8

/-- Conversion of an unsigned value (`index`, `size_t`) to the 32-bit `int`, as in
`int gid = node.get_gid()`, `const int sender = event.get_sender_gid()` and
`int n_values = values.size()`: the value modulo `2 ^ 32`, read as two's
complement. -/
def to_int (n : Nat) : Int :=
  if n % 2 ^ 32 < 2 ^ 31 then ((n % 2 ^ 32 : Nat) : Int) else ((n % 2 ^ 32 : Nat) : Int) - 2 ^ 32

/-- Modelled from the spec: the class `SIONBuffer` is declared in `sion_logger.h`,
which is not among the sources, and the spec does not describe it. The model is
the state that `SIONLogger::initialize`, `write` and `finalize` observe through
`reserve`, `get_capacity`, `get_size`, `get_free`, `read` and `clear`:
`max_size` is the capacity reserved, `data` the bytes written since the last
`clear()`. -/
structure SIONBuffer where
  max_size : Nat
  data : List Byte
  deriving DecidableEq, Repr

/-- `SIONBuffer::get_capacity()`. -/
def SIONBuffer.get_capacity (b : SIONBuffer) : Nat := b.max_size

/-- `SIONBuffer::get_size()`: the number of bytes held. -/
def SIONBuffer.get_size (b : SIONBuffer) : Nat := b.data.length

/-- `SIONBuffer::get_free()`: capacity minus size. -/
def SIONBuffer.get_free (b : SIONBuffer) : Nat := b.max_size - b.data.length

/-- `SIONBuffer::read()`: the bytes held. -/
def SIONBuffer.read (b : SIONBuffer) : List Byte := b.data

/-- `SIONBuffer::clear()`. -/
def SIONBuffer.clear (b : SIONBuffer) : SIONBuffer := { b with data := [] }

/-- `buffer << x` with `bytes` the object representation of `x`: bytes that fit
into the free space are appended. What the buffer does with bytes that do not
fit is decided by code that is not part of the sources: it is the parameter
`overflow`, and nothing is assumed about it here. -/
def SIONBuffer.put (overflow : SIONBuffer → List Byte → SIONBuffer) (b : SIONBuffer)
    (bytes : List Byte) : SIONBuffer :=
  if b.data.length + bytes.length ≤ b.max_size then { b with data := b.data ++ bytes }
  else overflow b bytes

/-- An overflow behaviour keeps the buffer at its fixed capacity: the capacity is not
changed and the buffer never holds more bytes than its capacity. -/
def fixed_capacity (overflow : SIONBuffer → List Byte → SIONBuffer) : Prop :=
  ∀ b bytes, (overflow b bytes).max_size = b.max_size ∧
    (b.data.length ≤ b.max_size → (overflow b bytes).data.length ≤ b.max_size)

/-- A sample overflow behaviour: bytes that do not fit are not stored. -/
def drop_overflow (b : SIONBuffer) (_bytes : List Byte) : SIONBuffer := b

/-- The part of a `VirtualProcessEntry` that `write` and `finalize` use: the SION
file behind the handle `sid`, as the sequence of bytes written to it so far, and
the buffer. -/
structure VirtualProcessEntry where
  file : List Byte
  buffer : SIONBuffer
  deriving DecidableEq, Repr

/-- `sion_fwrite( data, size, 1, sid )`: the bytes are appended to the file. -/
def sion_fwrite (bytes : List Byte) (entry : VirtualProcessEntry) : VirtualProcessEntry :=
  { entry with file := entry.file ++ bytes }

/-- The two statements `sion_fwrite( buffer.read(), buffer.get_size(), 1, sid );
buffer.clear();`. -/
def flush (entry : VirtualProcessEntry) : VirtualProcessEntry :=
  { sion_fwrite entry.buffer.read entry with buffer := entry.buffer.clear }

/-- `SIONLogger::write( device, event )` on the entry of the device's virtual
process; `gid` is `node.get_gid()`. -/
def SIONLogger.write {D : Type} [Sub D] (R : ObjectRepr D)
    (overflow : SIONBuffer → List Byte → SIONBuffer) (entry : VirtualProcessEntry)
    (gid : Nat) (event : Event D) : VirtualProcessEntry :=
  let gid : Int := to_int gid
  let sender : Int := to_int event.sender_gid
  let time : D := event.stamp_ms - event.offset
  let n_values : Int := 0
  let required_space : Nat := (3 * 4 + 8) % 2 ^ 32
  if entry.buffer.get_capacity > required_space then
    let entry1 := if entry.buffer.get_free < required_space then flush entry else entry
    { entry1 with
      buffer := (((entry1.buffer.put overflow (R.int_bytes gid)).put overflow
        (R.int_bytes sender)).put overflow (R.double_bytes time)).put overflow
        (R.int_bytes n_values) }
  else
    let entry1 := if entry.buffer.get_size > 0 then flush entry else entry
    sion_fwrite (R.int_bytes n_values)
      (sion_fwrite (R.double_bytes time)
        (sion_fwrite (R.int_bytes sender) (sion_fwrite (R.int_bytes gid) entry1)))

/-- `SIONLogger::write( device, event, values )`. `required_space` is an
`unsigned int`: the sum `3 * sizeof( int ) + ( 1 + n_values ) * sizeof( double )`
is reduced modulo `2 ^ 32`. -/
def SIONLogger.write_values {D : Type} [Sub D] (R : ObjectRepr D)
    (overflow : SIONBuffer → List Byte → SIONBuffer) (entry : VirtualProcessEntry)
    (gid : Nat) (event : Event D) (values : List D) : VirtualProcessEntry :=
  let gid : Int := to_int gid
  let sender : Int := to_int event.sender_gid
  let time : D := event.stamp_ms - event.offset
  let n_values : Int := to_int values.length
  let required_space : Nat := ((3 * 4 + (1 + n_values) * 8) % 2 ^ 32).toNat
  if entry.buffer.get_capacity > required_space then
    let entry1 := if entry.buffer.get_free < required_space then flush entry else entry
    let buffer1 := (((entry1.buffer.put overflow (R.int_bytes gid)).put overflow
        (R.int_bytes sender)).put overflow (R.double_bytes time)).put overflow
        (R.int_bytes n_values)
    { entry1 with
      buffer := values.foldl (fun b val => b.put overflow (R.double_bytes val)) buffer1 }
  else
    let entry1 := if entry.buffer.get_size > 0 then flush entry else entry
    let entry2 := sion_fwrite (R.int_bytes n_values)
      (sion_fwrite (R.double_bytes time)
        (sion_fwrite (R.int_bytes sender) (sion_fwrite (R.int_bytes gid) entry1)))
    values.foldl (fun e val => sion_fwrite (R.double_bytes val) e) entry2

/-- `SIONLogger::finalize()` on one virtual process: what the buffer still holds is
written to the file, then the file is closed. -/
def SIONLogger.finalize (entry : VirtualProcessEntry) : VirtualProcessEntry :=
  if entry.buffer.get_size > 0 then flush entry else entry

/-- One call of `SIONLogger::write` for a device with the given gid: without or
with values. -/
inductive WriteCall (D : Type) where
  | plain (gid : Nat) (event : Event D)
  | with_values (gid : Nat) (event : Event D) (values : List D)
  deriving DecidableEq, Repr

/-- A sequence of `write` calls on one virtual process, in order. -/
def SIONLogger.writes {D : Type} [Sub D] (R : ObjectRepr D)
    (overflow : SIONBuffer → List Byte → SIONBuffer) (calls : List (WriteCall D))
    (entry : VirtualProcessEntry) : VirtualProcessEntry :=
  calls.foldl
    (fun e c =>
      match c with
      | .plain gid event => SIONLogger.write R overflow e gid event
      | .with_values gid event values =>
          SIONLogger.write_values R overflow e gid event values)
    entry

/-- The bytes of a sequence of `double` values, in order. -/
def values_bytes {D : Type} (R : ObjectRepr D) : List D → List Byte
  | [] => []
  | v :: vs => R.double_bytes v ++ values_bytes R vs

/-- The record of one event as the claim words it: gid, sender,
time = stamp_ms - offset, n_values, then the n_values values. The gid of the
device, the sender gid of the event and the number of values are taken as they
are, not as the code narrows them to `int`. -/
def event_record {D : Type} [Sub D] (R : ObjectRepr D) : WriteCall D → List Byte
  | .plain gid event =>
      R.int_bytes (gid : Int) ++ R.int_bytes (event.sender_gid : Int) ++
        R.double_bytes (event.stamp_ms - event.offset) ++ R.int_bytes 0
  | .with_values gid event values =>
      R.int_bytes (gid : Int) ++ R.int_bytes (event.sender_gid : Int) ++
        R.double_bytes (event.stamp_ms - event.offset) ++
        R.int_bytes (values.length : Int) ++ values_bytes R values

/-- The concatenation, in call order, of the records of a call sequence. -/
def event_records {D : Type} [Sub D] (R : ObjectRepr D) : List (WriteCall D) → List Byte
  | [] => []
  | c :: cs => event_record R c ++ event_records R cs

/-- Number of bytes of the record of a call: `3 * sizeof( int )` and
`( 1 + n_values ) * sizeof( double )`. -/
def record_size {D : Type} : WriteCall D → Nat
  | .plain _ _ => 3 * 4 + 8
  | .with_values _ _ values => 3 * 4 + (1 + values.length) * 8

/-- The value of `unsigned int required_space` in `write( device, event, values )`
for `n` values, `n` below `2 ^ 31`: `3 * sizeof( int ) + ( 1 + n ) * sizeof( double )`
modulo `2 ^ 32`. -/
def wrapped_space (n : Nat) : Nat := (3 * 4 + (1 + n) * 8) % 2 ^ 32

/-- The calls to which the conservation theorem applies, for a buffer of the given
capacity: the gid, the sender gid and the number of values are values of an
`int` (and so is `1 + n_values`), and the record is either of a size that
`unsigned int required_space` holds or is sent to the direct-write path. -/
def in_range {D : Type} (capacity : Nat) : WriteCall D → Prop
  | .plain gid event => gid < 2 ^ 31 ∧ event.sender_gid < 2 ^ 31
  | .with_values gid event values =>
      gid < 2 ^ 31 ∧ event.sender_gid < 2 ^ 31 ∧ values.length + 1 < 2 ^ 31 ∧
        (3 * 4 + (1 + values.length) * 8 < 2 ^ 32 ∨ capacity ≤ wrapped_space values.length)

instance {D : Type} (capacity : Nat) (c : WriteCall D) : Decidable (in_range capacity c) := by
  cases c <;> unfold in_range <;> infer_instance

/-- Little-endian bytes of an integer, `k` of them. -/
def le_bytes (k : Nat) (x : Int) : List Byte :=
  (List.range k).map (fun i => UInt8.ofNat ((x / 256 ^ i) % 256).toNat)

/-- A sample layout: `double` replaced by the integers, both kinds of value stored
little-endian. -/
def sample_repr : ObjectRepr Int :=
  ⟨le_bytes 4, le_bytes 8, fun _ => by simp [le_bytes], fun _ => by simp [le_bytes]⟩

/-! ## `models/erfc_neuron.h` -/

/-- The complementary error function `erfc` of the C math library, over the real
numbers: `erfc x = 2 / √π * ∫ t in (x, ∞), exp (-t ^ 2)`. -/
noncomputable def erfc (x : ℝ) : ℝ :=
  2 / Real.sqrt Real.pi * ∫ t in Set.Ioi x, Real.exp (-t ^ 2)

/-- The members of `gainfunction_erfc`: `theta_`, the threshold of the activation
function, and `sigma_`, the inverse steepness of the gain function; `double_t`
is taken as the real numbers. -/
structure gainfunction_erfc where
  theta_ : ℝ
  sigma_ : ℝ

/-- The value `0.5 * erfc( ( h - theta_ ) / ( sqrt( 2. ) * sigma_ ) )` that
`gainfunction_erfc::operator()` compares the random draw against. -/
noncomputable def gainfunction_erfc.gain (g : gainfunction_erfc) (h : ℝ) : ℝ :=
  0.5 * erfc ((h - g.theta_) / (Real.sqrt 2 * g.sigma_))

/-- `gainfunction_erfc::operator()( rng, h )`, with `drand` the value returned by
`rng->drand()`: `return rng->drand() < 0.5 * erfc( ... );`. -/
noncomputable def gainfunction_erfc.call (g : gainfunction_erfc) (drand h : ℝ) : Bool :=
  decide (drand < g.gain h)

/-! ## Lemmas on `resize` and on the loops -/

theorem resize_length {β : Type} (v : List β) (n : Nat) (dflt : β) :
    (resize v n dflt).length = n := by
  simp only [resize, List.length_append, List.length_take, List.length_replicate]
  omega

theorem resize_getElem?_old {β : Type} (v : List β) (n : Nat) (dflt : β) (i : Nat)
    (hi : i < v.length) (hn : i < n) : (resize v n dflt)[i]? = v[i]? := by
  unfold resize
  rw [List.getElem?_append_left (by simp; omega), List.getElem?_take_of_lt hn]

theorem resize_getElem?_new {β : Type} (v : List β) (n : Nat) (dflt : β) (i : Nat)
    (hi : v.length ≤ i) (hn : i < n) : (resize v n dflt)[i]? = some dflt := by
  unfold resize
  have h1 : (List.take n v).length = v.length := by simp; omega
  rw [List.getElem?_append_right (by omega), List.getElem?_replicate, h1]
  rw [if_pos (by omega)]

theorem resize_getElem?_none {β : Type} (v : List β) (n : Nat) (dflt : β) (i : Nat)
    (hn : n ≤ i) : (resize v n dflt)[i]? = none :=
  List.getElem?_eq_none (by rw [resize_length]; exact hn)

theorem foldl_set_length {β : Type} (x : β) (is : List Nat) (l : List β) :
    (is.foldl (fun ts tid => ts.set tid x) l).length = l.length := by
  induction is generalizing l with
  | nil => rfl
  | cons a is ih => simp [ih]

theorem foldl_set_range {β : Type} (x : β) (k : Nat) (l : List β) (i : Nat) :
    ((List.range k).foldl (fun ts tid => ts.set tid x) l)[i]? =
      if i < k ∧ i < l.length then some x else l[i]? := by
  induction k with
  | zero => simp
  | succ k ih =>
    rw [List.range_succ, List.foldl_append, List.foldl_cons, List.foldl_nil,
      List.getElem?_set, ih, foldl_set_length]
    by_cases h1 : k = i
    · subst h1
      by_cases h2 : k < l.length
      · simp [h2]
      · simp [h2]
        omega
    · simp only [h1, if_false]
      by_cases h2 : i < k
      · have : i < k + 1 := by omega
        simp [h2, this]
      · have : ¬ i < k + 1 := by omega
        simp [h2, this]

theorem initialize_targets {α : Type} (n : Nat) (t : TargetTable α) :
    ( TargetTable.initialize n t).targets_ = List.replicate n (some []) := by
  apply List.ext_getElem?
  intro i
  simp only [ TargetTable.initialize]
  rw [foldl_set_range, resize_length]
  by_cases h : i < n
  · simp [h, List.getElem?_replicate]
  · simp [h, List.getElem?_replicate]
    rw [resize_length]
    omega

theorem prepare_eq_some {α : Type} (m tid : Nat) (t : TargetTable α) (part : List (List α))
    (h : t.targets_[tid]? = some (some part)) :
    TargetTable.prepare m tid t = some ⟨t.targets_.set tid (some (resize part m []))⟩ := by
  simp [TargetTable.prepare, h]

theorem prepare_inv {α : Type} (m tid : Nat) (t t1 : TargetTable α)
    (h : TargetTable.prepare m tid t = some t1) :
    ∃ part, t.targets_[tid]? = some (some part) ∧
      t1 = ⟨t.targets_.set tid (some (resize part m []))⟩ := by
  unfold TargetTable.prepare at h
  split at h
  · rename_i part hp
    exact ⟨part, hp, by simpa using h.symm⟩
  · simp at h

theorem prepare_num_slots {α : Type} (m tid : Nat) (t t1 : TargetTable α)
    (h : TargetTable.prepare m tid t = some t1) (a : Nat) :
    t1.num_slots a = if a = tid then m else t.num_slots a := by
  obtain ⟨part, hp, rfl⟩ := prepare_inv m tid t t1 h
  have hlt : tid < t.targets_.length := by
    by_contra hc
    rw [List.getElem?_eq_none (by omega)] at hp
    exact absurd hp (by simp)
  by_cases ha : a = tid
  · subst ha
    simp [TargetTable.num_slots, List.getElem?_set, hlt, resize_length]
  · have : ¬ tid = a := fun h => ha h.symm
    simp [TargetTable.num_slots, List.getElem?_set, ha, this]

theorem prepare_slot {α : Type} (m tid : Nat) (t t1 : TargetTable α)
    (h : TargetTable.prepare m tid t = some t1) (a i : Nat) :
    t1.slot a i =
      if a = tid then
        (if i < m then (if i < t.num_slots tid then t.slot tid i else some []) else none)
      else t.slot a i := by
  obtain ⟨part, hp, rfl⟩ := prepare_inv m tid t t1 h
  have hlt : tid < t.targets_.length := by
    by_contra hc
    rw [List.getElem?_eq_none (by omega)] at hp
    exact absurd hp (by simp)
  by_cases ha : a = tid
  · subst ha
    simp only [TargetTable.slot, TargetTable.num_slots, List.getElem?_set, hlt, hp, if_true]
    by_cases hm : i < m
    · by_cases hi : i < part.length
      · simp [hm, hi, resize_getElem?_old part m [] i hi hm]
      · simp [hm, hi, resize_getElem?_new part m [] i (by omega) hm]
    · simp [hm, resize_getElem?_none part m [] i (by omega)]
  · have : ¬ tid = a := fun h => ha h.symm
    simp [TargetTable.slot, List.getElem?_set, ha, this]

/-! ## Claims on the target table -/

/-- C2: for every thread count `n`, `TargetTable::initialize()` leaves the table
with exactly `n` per-thread partitions, each of them allocated and holding zero
target-sequence slots, whatever the table held before the call. -/
theorem initialize_partitions_empty {α : Type} (n : Nat) (t : TargetTable α) :
    ( TargetTable.initialize n t).targets_.length = n ∧
    ∀ tid, tid < n →
      ( TargetTable.initialize n t).targets_[tid]? = some (some []) ∧
      ( TargetTable.initialize n t).num_slots tid = 0 := by
  refine ⟨by simp [initialize_targets], ?_⟩
  intro tid htid
  have h : ( TargetTable.initialize n t).targets_[tid]? = some (some []) := by
    rw [initialize_targets, List.getElem?_replicate, if_pos htid]
  exact ⟨h, by simp [TargetTable.num_slots, h]⟩

/-- C3: on a table whose partitions are all allocated (as `initialize` leaves
them) and for a valid thread id, `prepare(tid)` succeeds, the partition of `tid`
then holds exactly `max_num_local_nodes` slots, and every slot that did not
exist before the call is an empty sequence. -/
theorem prepare_dimensions {α : Type} (m tid : Nat) (t : TargetTable α)
    (htid : tid < t.targets_.length) (hinit : ∀ p ∈ t.targets_, p ≠ none) :
    ∃ t1, TargetTable.prepare m tid t = some t1 ∧
      t1.targets_.length = t.targets_.length ∧
      t1.num_slots tid = m ∧
      ∀ i, t.num_slots tid ≤ i → i < m → t1.slot tid i = some [] := by
  have hmem : t.targets_[tid] ∈ t.targets_ := List.getElem_mem htid
  have hne := hinit _ hmem
  obtain ⟨part, hpart⟩ := Option.ne_none_iff_exists'.mp hne
  have hp : t.targets_[tid]? = some (some part) := by
    rw [List.getElem?_eq_getElem htid, hpart]
  have h := prepare_eq_some m tid t part hp
  refine ⟨_, h, by simp, ?_, ?_⟩
  · rw [prepare_num_slots m tid t _ h]; simp
  · intro i hi hm
    rw [prepare_slot m tid t _ h]
    simp [hm, Nat.not_lt.mpr hi]

/-- Witness of C3: a two-thread table just initialised, thread 1 prepared for three
local neurons. -/
theorem prepare_dimensions_witness :
    ∃ t1, TargetTable.prepare 3 1 ( TargetTable.initialize 2 (TargetTable.fresh : TargetTable Nat))
        = some t1 ∧
      t1.targets_.length
        = ( TargetTable.initialize 2 (TargetTable.fresh : TargetTable Nat)).targets_.length ∧
      t1.num_slots 1 = 3 ∧
      ∀ i, ( TargetTable.initialize 2 (TargetTable.fresh : TargetTable Nat)).num_slots 1 ≤ i →
        i < 3 → t1.slot 1 i = some [] :=
  prepare_dimensions 3 1 ( TargetTable.initialize 2 TargetTable.fresh) (by decide) (by decide)

/-- C4: a successful `prepare(tid)` keeps the number of partitions, leaves the
partition of every other thread identical, and leaves every slot of `tid`'s
partition that existed before and lies below the new slot count at its index
with its contents. -/
theorem prepare_frame {α : Type} (m tid : Nat) (t t1 : TargetTable α)
    (h : TargetTable.prepare m tid t = some t1) :
    t1.targets_.length = t.targets_.length ∧
    (∀ a, a ≠ tid → t1.targets_[a]? = t.targets_[a]?) ∧
    (∀ i, i < t.num_slots tid → i < m → t1.slot tid i = t.slot tid i) := by
  refine ⟨?_, ?_, ?_⟩
  · obtain ⟨part, _, rfl⟩ := prepare_inv m tid t t1 h
    simp
  · intro a ha
    obtain ⟨part, _, rfl⟩ := prepare_inv m tid t t1 h
    have : ¬ tid = a := fun h => ha h.symm
    simp [List.getElem?_set, this]
  · intro i hi hm
    rw [prepare_slot m tid t t1 h]
    simp [hi, hm]

/-- Witness of C4: thread 0 holds two populated slots and is prepared for three. -/
theorem prepare_frame_witness :
    (⟨[some [[7], [8, 9], []], some [[1]]]⟩ : TargetTable Nat).targets_.length
      = (⟨[some [[7], [8, 9]], some [[1]]]⟩ : TargetTable Nat).targets_.length ∧
    (∀ a, a ≠ 0 → (⟨[some [[7], [8, 9], []], some [[1]]]⟩ : TargetTable Nat).targets_[a]?
      = (⟨[some [[7], [8, 9]], some [[1]]]⟩ : TargetTable Nat).targets_[a]?) ∧
    (∀ i, i < (⟨[some [[7], [8, 9]], some [[1]]]⟩ : TargetTable Nat).num_slots 0 → i < 3 →
      (⟨[some [[7], [8, 9], []], some [[1]]]⟩ : TargetTable Nat).slot 0 i
        = (⟨[some [[7], [8, 9]], some [[1]]]⟩ : TargetTable Nat).slot 0 i) :=
  prepare_frame 3 0 ⟨[some [[7], [8, 9]], some [[1]]]⟩ ⟨[some [[7], [8, 9], []], some [[1]]]⟩
    (by decide)

/-- C5: whatever the table holds, after `TargetTable::finalize()` the collection of
per-thread partitions is empty, the table equals a freshly constructed one, and a
following `initialize()` gives the same state as `initialize()` on a freshly
constructed table. -/
theorem finalize_releases_all {α : Type} (n : Nat) (t : TargetTable α) :
    ( TargetTable.finalize t).targets_ = [] ∧
    TargetTable.finalize t = TargetTable.fresh ∧
    TargetTable.initialize n ( TargetTable.finalize t)
      = TargetTable.initialize n (TargetTable.fresh : TargetTable α) :=
  ⟨rfl, rfl, rfl⟩

/-- C6: the three sentinel marker values are pairwise distinct, so a marker field
equals at most one of them. -/
theorem markers_pairwise_distinct :
    TargetData.complete_marker ≠ TargetData.end_marker ∧
    TargetData.complete_marker ≠ TargetData.invalid_marker ∧
    TargetData.end_marker ≠ TargetData.invalid_marker ∧
    ∀ marker : Nat,
      ¬ (marker = TargetData.complete_marker ∧ marker = TargetData.end_marker) ∧
      ¬ (marker = TargetData.complete_marker ∧ marker = TargetData.invalid_marker) ∧
      ¬ (marker = TargetData.end_marker ∧ marker = TargetData.invalid_marker) := by
  refine ⟨by decide, by decide, by decide, fun marker => ⟨?_, ?_, ?_⟩⟩ <;>
    · rintro ⟨h1, h2⟩
      rw [h1] at h2
      revert h2
      decide

/-! ### `add_target` / `get_targets` -/

theorem slot_of_lt {α : Type} (t : TargetTable α) (a i : Nat) (h : i < t.num_slots a) :
    ∃ s, t.slot a i = some s := by
  unfold TargetTable.num_slots at h
  split at h
  · rename_i part hp
    exact ⟨part[i], by simp only [TargetTable.slot, hp]; exact List.getElem?_eq_getElem h⟩
  · omega

theorem add_target_valid (t : TargetTable Entry) (thread lid syn : Nat) (target : Target)
    (h : lid < t.num_slots thread) :
    ∃ t1, t.add_target thread lid syn target = .ok t1 ∧
      (∀ a, t1.num_slots a = t.num_slots a) ∧
      (∀ a i, t1.slot a i =
        if a = thread ∧ i = lid then (t.slot a i).map (· ++ [(syn, target)])
        else t.slot a i) := by
  unfold TargetTable.num_slots at h
  split at h
  case h_2 => omega
  rename_i part hp
  have hlt : thread < t.targets_.length := by
    by_contra hc
    rw [List.getElem?_eq_none (by omega)] at hp
    exact absurd hp (by simp)
  have hs : part[lid]? = some part[lid] := List.getElem?_eq_getElem h
  refine ⟨⟨t.targets_.set thread (some (part.set lid (part[lid] ++ [(syn, target)])))⟩,
    by simp only [TargetTable.add_target, hp, hs], ?_, ?_⟩
  · intro a
    by_cases ha : a = thread
    · subst ha
      simp [TargetTable.num_slots, List.getElem?_set, hlt, hp]
    · have : ¬ thread = a := fun h => ha h.symm
      simp [TargetTable.num_slots, List.getElem?_set, this]
  · intro a i
    by_cases ha : a = thread
    · subst ha
      by_cases hi : i = lid
      · subst hi
        simp [TargetTable.slot, List.getElem?_set, hlt, hp, h]
      · have : ¬ lid = i := fun h => hi h.symm
        simp [TargetTable.slot, List.getElem?_set, hlt, hp, hi, this]
    · have : ¬ thread = a := fun h => ha h.symm
      simp [TargetTable.slot, List.getElem?_set, ha, this]

theorem added_cons (c : AddCall) (cs : List AddCall) (a i : Nat) :
    added (c :: cs) a i =
      (if c.thread = a ∧ c.local_neuron_id = i then [(c.synapse_type, c.target)] else [])
        ++ added cs a i := by
  unfold added
  by_cases h : c.thread = a ∧ c.local_neuron_id = i
  · simp [List.filterMap_cons, h]
  · simp [List.filterMap_cons, h]

theorem add_targets_valid (calls : List AddCall) (t : TargetTable Entry)
    (hv : ∀ c ∈ calls, c.local_neuron_id < t.num_slots c.thread) :
    ∃ t1, add_targets calls t = .ok t1 ∧
      (∀ a, t1.num_slots a = t.num_slots a) ∧
      (∀ a i, t1.slot a i = (t.slot a i).map (· ++ added calls a i)) := by
  induction calls generalizing t with
  | nil =>
    refine ⟨t, rfl, fun _ => rfl, fun a i => ?_⟩
    cases t.slot a i <;> simp [added]
  | cons c cs ih =>
    obtain ⟨t1, h1, hn1, hs1⟩ :=
      add_target_valid t c.thread c.local_neuron_id c.synapse_type c.target
        (hv c (List.mem_cons_self _ _))
    obtain ⟨t2, h2, hn2, hs2⟩ := ih t1 (fun d hd => by
      rw [hn1]; exact hv d (List.mem_cons_of_mem _ hd))
    refine ⟨t2, by simp only [add_targets, h1, h2], fun a => by rw [hn2, hn1], ?_⟩
    intro a i
    rw [hs2, hs1, added_cons]
    by_cases hc : a = c.thread ∧ i = c.local_neuron_id
    · have hc2 : c.thread = a ∧ c.local_neuron_id = i := ⟨hc.1.symm, hc.2.symm⟩
      rw [if_pos hc, if_pos hc2]
      cases t.slot a i <;> simp
    · have hc2 : ¬ (c.thread = a ∧ c.local_neuron_id = i) :=
        fun h => hc ⟨h.1.symm, h.2.symm⟩
      rw [if_neg hc, if_neg hc2]
      simp

theorem initialize_slots_empty {α : Type} (n : Nat) (t : TargetTable α) (a i : Nat)
    (s : List α) (h : ( TargetTable.initialize n t).slot a i = some s) : s = [] := by
  unfold TargetTable.slot at h
  rw [initialize_targets, List.getElem?_replicate] at h
  by_cases ha : a < n
  · simp [ha] at h
  · simp [ha] at h

theorem prepares_slots_empty {α : Type} (ps : List (Nat × Nat)) (t t0 : TargetTable α)
    (h : prepares ps t = some t0) (hE : ∀ a i s, t.slot a i = some s → s = []) :
    ∀ a i s, t0.slot a i = some s → s = [] := by
  induction ps generalizing t with
  | nil =>
    simp only [prepares, Option.some.injEq] at h
    subst h
    exact hE
  | cons p ps ih =>
    simp only [prepares] at h
    split at h
    · rename_i t1 h1
      refine ih t1 h ?_
      intro a i s hs
      rw [prepare_slot p.2 p.1 t t1 h1] at hs
      split at hs
      · split at hs
        · split at hs
          · exact hE _ _ _ hs
          · simpa using hs.symm
        · simp at hs
      · exact hE _ _ _ hs
    · simp at h

theorem targets_of_type_added (calls : List AddCall) (tid lid syn : Nat) :
    targets_of_type (added calls tid lid) syn =
      (calls.filter (fun c =>
        decide (c.thread = tid ∧ c.local_neuron_id = lid ∧ c.synapse_type = syn))).map
        (fun c => c.target) := by
  induction calls with
  | nil => rfl
  | cons c cs ih =>
    rw [added_cons]
    unfold targets_of_type at ih ⊢
    rw [List.filterMap_append, ih, List.filter_cons]
    by_cases h1 : c.thread = tid ∧ c.local_neuron_id = lid
    · by_cases h2 : c.synapse_type = syn
      · simp [h1, h2]
      · simp [h1, h2]
    · have : ¬ (c.thread = tid ∧ c.local_neuron_id = lid ∧ c.synapse_type = syn) :=
        fun h => h1 ⟨h.1, h.2.1⟩
      simp only [h1, if_false, List.filterMap_nil, List.nil_append, this, decide_False]
      simp

/-- C1: starting from `initialize()` followed by any successful sequence of
`prepare` calls, every finite sequence of `add_target` calls whose local neuron
ids lie in the dimensioned range of their thread succeeds, and afterwards, for
every thread `tid` and every local neuron id in the dimensioned range,
`get_targets(tid, id)` is exactly the sequence of entries added for `(tid, id)`,
in insertion order; for each synapse type the view holds exactly the targets
added for `(tid, id)` under that synapse type, in insertion order. -/
theorem get_targets_returns_added (n : Nat) (old : TargetTable Entry)
    (ps : List (Nat × Nat)) (t0 : TargetTable Entry)
    (hprep : prepares ps ( TargetTable.initialize n old) = some t0)
    (calls : List AddCall)
    (hvalid : ∀ c ∈ calls, c.local_neuron_id < t0.num_slots c.thread) :
    ∃ t1, add_targets calls t0 = .ok t1 ∧
      ∀ tid lid, lid < t0.num_slots tid →
        t1.get_targets tid lid = some (added calls tid lid) ∧
        ∀ syn, targets_of_type (added calls tid lid) syn =
          (calls.filter (fun c =>
            decide (c.thread = tid ∧ c.local_neuron_id = lid ∧ c.synapse_type = syn))).map
            (fun c => c.target) := by
  obtain ⟨t1, h1, _, hs⟩ := add_targets_valid calls t0 hvalid
  refine ⟨t1, h1, fun tid lid hlid => ⟨?_, fun syn => targets_of_type_added calls tid lid syn⟩⟩
  obtain ⟨s, hslot⟩ := slot_of_lt t0 tid lid hlid
  have hnil : s = [] :=
    prepares_slots_empty ps _ t0 hprep (initialize_slots_empty n old) tid lid s hslot
  subst hnil
  simp [TargetTable.get_targets, hs, hslot]

/-- Witness of C1: two threads, thread 0 prepared for two local neurons and thread 1
for one, then three additions, two of them to local neuron 1 of thread 0. -/
theorem get_targets_returns_added_witness :
    ∃ t1, add_targets
        [⟨0, 1, 5, ⟨3, 0, 5, 11⟩⟩, ⟨1, 0, 4, ⟨2, 1, 4, 12⟩⟩, ⟨0, 1, 4, ⟨1, 1, 4, 13⟩⟩]
        ⟨[some [[], []], some [[]]]⟩ = .ok t1 ∧
      ∀ tid lid, lid < (⟨[some [[], []], some [[]]]⟩ : TargetTable Entry).num_slots tid →
        t1.get_targets tid lid = some (added
          [⟨0, 1, 5, ⟨3, 0, 5, 11⟩⟩, ⟨1, 0, 4, ⟨2, 1, 4, 12⟩⟩, ⟨0, 1, 4, ⟨1, 1, 4, 13⟩⟩]
          tid lid) ∧
        ∀ syn, targets_of_type (added
          [⟨0, 1, 5, ⟨3, 0, 5, 11⟩⟩, ⟨1, 0, 4, ⟨2, 1, 4, 12⟩⟩, ⟨0, 1, 4, ⟨1, 1, 4, 13⟩⟩]
          tid lid) syn =
          (List.filter (fun c : AddCall =>
            decide (c.thread = tid ∧ c.local_neuron_id = lid ∧ c.synapse_type = syn))
            [⟨0, 1, 5, ⟨3, 0, 5, 11⟩⟩, ⟨1, 0, 4, ⟨2, 1, 4, 12⟩⟩,
              ⟨0, 1, 4, ⟨1, 1, 4, 13⟩⟩]).map (fun c : AddCall => c.target) :=
  get_targets_returns_added 2 TargetTable.fresh [(0, 2), (1, 1)]
    ⟨[some [[], []], some [[]]]⟩ (by decide)
    [⟨0, 1, 5, ⟨3, 0, 5, 11⟩⟩, ⟨1, 0, 4, ⟨2, 1, 4, 12⟩⟩, ⟨0, 1, 4, ⟨1, 1, 4, 13⟩⟩]
    (by decide)

/-! ## Claims on the in-memory recording backend -/

theorem clear_columns_getElem? {β : Type} (columns : List (List β)) (i : Nat) :
    (clear_columns columns)[i]? = if i < columns.length then some [] else none := by
  unfold clear_columns
  show ((List.range columns.length).foldl (fun ts tid => ts.set tid []) columns)[i]? = _
  rw [foldl_set_range]
  by_cases h : i < columns.length
  · simp [h]
  · simp [h]
    omega

theorem clear_columns_length {β : Type} (columns : List (List β)) :
    (clear_columns columns).length = columns.length := by
  unfold clear_columns
  show ((List.range columns.length).foldl (fun ts tid => ts.set tid []) columns).length = _
  rw [foldl_set_length]

theorem clear_columns_mem {β : Type} (columns : List (List β)) (col : List β)
    (h : col ∈ clear_columns columns) : col = [] := by
  obtain ⟨i, hi⟩ := List.mem_iff_getElem?.mp h
  rw [clear_columns_getElem?] at hi
  split at hi
  · simpa using hi.symm
  · simp at hi

theorem long_to_size_t_eq_zero (v : Int) (h : is_long v) : long_to_size_t v = 0 ↔ v = 0 := by
  unfold is_long at h
  unfold long_to_size_t
  norm_num at h ⊢
  omega

/-- C7: `DeviceData::set_status` accepts only 0 for `n_events`. For every device
data and every status dictionary: when the dictionary holds `n_events` with a
non-zero `long` value the call fails with `BadProperty`; when it holds
`n_events = 0` the call succeeds and afterwards the senders, the three time
vectors and every double and long value column are empty while the numbers of
value columns are unchanged; when it does not hold `n_events` the call succeeds
and every stored event is kept. -/
theorem set_status_n_events {D : Type} (dd : DeviceData D) (d : StatusDict) :
    (∀ v, d.n_events = some v → is_long v → v ≠ 0 →
      (dd.set_status d).2 = .error (.BadProperty
        "Property n_events can only be set to 0 (which clears all stored events).")) ∧
    (d.n_events = some 0 →
      (dd.set_status d).2 = .ok () ∧
      (dd.set_status d).1.senders_ = [] ∧
      (dd.set_status d).1.times_ms_ = [] ∧
      (dd.set_status d).1.times_steps_ = [] ∧
      (dd.set_status d).1.times_offset_ = [] ∧
      (∀ col ∈ (dd.set_status d).1.double_values_, col = []) ∧
      (∀ col ∈ (dd.set_status d).1.long_values_, col = []) ∧
      (dd.set_status d).1.double_values_.length = dd.double_values_.length ∧
      (dd.set_status d).1.long_values_.length = dd.long_values_.length) ∧
    (d.n_events = none →
      (dd.set_status d).2 = .ok () ∧
      (dd.set_status d).1.senders_ = dd.senders_ ∧
      (dd.set_status d).1.times_ms_ = dd.times_ms_ ∧
      (dd.set_status d).1.times_steps_ = dd.times_steps_ ∧
      (dd.set_status d).1.times_offset_ = dd.times_offset_ ∧
      (dd.set_status d).1.double_values_ = dd.double_values_ ∧
      (dd.set_status d).1.long_values_ = dd.long_values_) := by
  refine ⟨?_, ?_, ?_⟩
  · intro v hv hlong hne
    have hz : long_to_size_t v ≠ 0 := fun h => hne ((long_to_size_t_eq_zero v hlong).mp h)
    simp only [DeviceData.set_status, hv]
    rw [if_pos hz]
  · intro hv
    have hz : long_to_size_t 0 = 0 := by decide
    simp only [DeviceData.set_status, hv, hz]
    cases d.time_in_steps <;>
      simp [DeviceData.clear, clear, clear_columns_length] <;>
      exact ⟨fun col h => clear_columns_mem _ col h, fun col h => clear_columns_mem _ col h⟩
  · intro hv
    simp only [DeviceData.set_status, hv]
    cases d.time_in_steps <;> simp

/-- Witness of C7: one stored event with one double column; `n_events = 7` is
refused, `n_events = 0` clears. -/
theorem set_status_n_events_witness :
    ((⟨false, [4], [15], [], [], ["V_m"], [[-70]], [], []⟩ : DeviceData Int).set_status
        ⟨none, some 7⟩).2 = .error (.BadProperty
        "Property n_events can only be set to 0 (which clears all stored events).") ∧
    ((⟨false, [4], [15], [], [], ["V_m"], [[-70]], [], []⟩ : DeviceData Int).set_status
        ⟨some true, some 0⟩).1 = ⟨true, [], [], [], [], ["V_m"], [[]], [], []⟩ :=
  ⟨(set_status_n_events _ ⟨none, some 7⟩).1 7 rfl (by decide) (by decide), by decide⟩

theorem push_values_aux {β : Type} (values : List β) (is : List Nat) (columns : List (List β))
    (h : ∀ i ∈ is, i < values.length ∧ i < columns.length) :
    ∃ r, is.foldlM
        (fun cols i =>
          match cols[i]?, values[i]? with
          | some col, some v => some (cols.set i (col ++ [v]))
          | _, _ => none)
        columns = some r ∧ r.length = columns.length := by
  induction is generalizing columns with
  | nil => exact ⟨columns, rfl, rfl⟩
  | cons i is ih =>
    have hi := h i (List.mem_cons_self _ _)
    have h1 : columns[i]? = some columns[i] := List.getElem?_eq_getElem hi.2
    have h2 : values[i]? = some values[i] := List.getElem?_eq_getElem hi.1
    obtain ⟨r, hr, hlen⟩ := ih (columns.set i (columns[i] ++ [values[i]])) (fun j hj => by
      have := h j (List.mem_cons_of_mem _ hj)
      simpa using this)
    refine ⟨r, ?_, by simpa using hlen⟩
    rw [List.foldlM_cons]
    simp only [h1, h2]
    exact hr

theorem push_values_some {β : Type} (columns : List (List β)) (values : List β)
    (h : values.length ≤ columns.length) :
    ∃ r, push_values columns values = some r ∧ r.length = columns.length :=
  push_values_aux values (List.range values.length) columns (fun i hi => by
    have := List.mem_range.mp hi
    omega)

theorem push_back_some {D : Type} [Sub D] (dd : DeviceData D) (event : Event D)
    (double_values : List D) (long_values : List Int)
    (hd : double_values.length ≤ dd.double_values_.length)
    (hl : long_values.length ≤ dd.long_values_.length) :
    ∃ dd1, dd.push_back event double_values long_values = some dd1 ∧
      dd1.senders_ = dd.senders_ ++ [event.sender_gid] := by
  obtain ⟨dvs, hdv, _⟩ := push_values_some dd.double_values_ double_values hd
  obtain ⟨lvs, hlv, _⟩ := push_values_some dd.long_values_ long_values hl
  unfold DeviceData.push_back
  cases hts : dd.time_in_steps_ <;> simp [hts, hdv, hlv]

theorem map_find_assign {V : Type} (m : List (Nat × V)) (key : Nat) (x : V) (k : Nat) :
    map_find (map_assign m key x) k =
      if k = key then (map_find m key).map (fun _ => x) else map_find m k := by
  induction m with
  | nil => simp [map_assign, map_find]
  | cons kv m ih =>
    obtain ⟨k0, v0⟩ := kv
    by_cases h0 : k0 = key
    · subst h0
      by_cases hk : k = k0
      · subst hk
        simp [map_assign, map_find]
      · have : ¬ k0 = k := fun h => hk h.symm
        simp [map_assign, map_find, hk, this]
    · by_cases hk : k = key
      · subst hk
        simp [map_assign, map_find, h0, ih]
      · by_cases hk0 : k0 = k
        · simp [map_assign, map_find, h0, hk0, hk]
        · simp [map_assign, map_find, h0, hk0, hk, ih]

theorem map_find_insert {V : Type} (m : List (Nat × V)) (key : Nat) (x : V)
    (h : map_find m key = none) : map_find (map_insert m key x) key = some x := by
  induction m with
  | nil => simp [map_insert, map_find]
  | cons kv m ih =>
    obtain ⟨k0, v0⟩ := kv
    unfold map_find at h
    split at h
    · simp at h
    · rename_i hk
      have := ih h
      simp only [map_insert, List.cons_append, map_find, hk, if_false] at this ⊢
      exact this

/-- After `RecordingBackendMemory::enroll` on a valid thread index the device has
device data: the data it had before, or a newly constructed `DeviceData`. -/
theorem enroll_enrolled {D : Type} (b : RecordingBackendMemory D) (t gid : Nat)
    (ht : t < b.device_data_.length) :
    ∃ b1, b.enroll t gid = some b1 ∧
      b1.device t gid = some ((b.device t gid).getD DeviceData.new) := by
  have hm : b.device_data_[t]? = some b.device_data_[t] := List.getElem?_eq_getElem ht
  cases hf : map_find b.device_data_[t] gid with
  | none =>
    refine ⟨⟨b.device_data_.set t (map_insert b.device_data_[t] gid DeviceData.new)⟩, ?_, ?_⟩
    · simp only [RecordingBackendMemory.enroll, hm, hf]
    · simp [RecordingBackendMemory.device, List.getElem?_set, ht, hm, hf,
        map_find_insert _ _ _ hf]
  | some dd =>
    refine ⟨b, ?_, ?_⟩
    · simp only [RecordingBackendMemory.enroll, hm, hf]
    · simp [RecordingBackendMemory.device, hm, hf]

/-- C8: `RecordingBackendMemory::write` on a valid thread index `t`. When device
`(t, gid)` is enrolled and the numbers of double and long values passed do not
exceed the device's numbers of value columns, the call succeeds, the device's
`senders_` afterwards is the old one with the event's sender gid appended (so
its length is the old length plus one and its last element is the sender gid),
and the data of every other device is unchanged. When `(t, gid)` is not enrolled
the call succeeds and the backend state is unchanged. -/
theorem write_persists_one_event {D : Type} [Sub D] (b : RecordingBackendMemory D)
    (t gid : Nat) (event : Event D) (double_values : List D) (long_values : List Int)
    (ht : t < b.device_data_.length) :
    (∀ dd, b.device t gid = some dd →
      double_values.length ≤ dd.double_values_.length →
      long_values.length ≤ dd.long_values_.length →
      ∃ b1 dd1, b.write t gid event double_values long_values = some b1 ∧
        b1.device t gid = some dd1 ∧
        dd1.senders_ = dd.senders_ ++ [event.sender_gid] ∧
        dd1.senders_.length = dd.senders_.length + 1 ∧
        dd1.senders_.getLast? = some event.sender_gid ∧
        ∀ t2 g2, (t2, g2) ≠ (t, gid) → b1.device t2 g2 = b.device t2 g2) ∧
    (b.device t gid = none → b.write t gid event double_values long_values = some b) := by
  have hm : b.device_data_[t]? = some b.device_data_[t] := List.getElem?_eq_getElem ht
  refine ⟨?_, ?_⟩
  · intro dd hdd hd hl
    simp only [RecordingBackendMemory.device, hm] at hdd
    obtain ⟨dd1, hpush, hs⟩ := push_back_some dd event double_values long_values hd hl
    refine ⟨⟨b.device_data_.set t (map_assign b.device_data_[t] gid dd1)⟩, dd1, ?_, ?_, hs,
      by simp [hs], by simp [hs], ?_⟩
    · simp only [RecordingBackendMemory.write, hm, hdd, hpush]
    · simp [RecordingBackendMemory.device, List.getElem?_set, ht, map_find_assign, hdd]
    · intro t2 g2 hne
      by_cases h2 : t2 = t
      · subst h2
        have hg : g2 ≠ gid := fun h => hne (by rw [h])
        simp [RecordingBackendMemory.device, List.getElem?_set, ht, map_find_assign, hg, hm]
      · have : ¬ t = t2 := fun h => h2 h.symm
        simp [RecordingBackendMemory.device, List.getElem?_set, this]
  · intro hnone
    simp only [RecordingBackendMemory.device, hm] at hnone
    simp only [RecordingBackendMemory.write, hm, hnone]

/-- Witness of C8: an event with one double value written for the enrolled device
`(0, 5)` of the sample backend. -/
theorem write_persists_one_event_witness :
    (∀ dd, sample_backend.device 0 5 = some dd →
      [(-65 : Int)].length ≤ dd.double_values_.length →
      ([] : List Int).length ≤ dd.long_values_.length →
      ∃ b1 dd1, sample_backend.write 0 5 sample_event [-65] [] = some b1 ∧
        b1.device 0 5 = some dd1 ∧
        dd1.senders_ = dd.senders_ ++ [sample_event.sender_gid] ∧
        dd1.senders_.length = dd.senders_.length + 1 ∧
        dd1.senders_.getLast? = some sample_event.sender_gid ∧
        ∀ t2 g2, (t2, g2) ≠ (0, 5) → b1.device t2 g2 = sample_backend.device t2 g2) ∧
    (sample_backend.device 0 5 = none →
      sample_backend.write 0 5 sample_event [-65] [] = some sample_backend) :=
  write_persists_one_event sample_backend 0 5 sample_event [-65] [] (by decide)

/-! ## Claims on the SION logger -/

theorem to_int_of_lt (n : Nat) (h : n < 2 ^ 31) : to_int n = n := by
  have h1 : n % 2 ^ 32 = n := Nat.mod_eq_of_lt (by norm_num at h ⊢; omega)
  unfold to_int
  rw [h1, if_pos h]

theorem required_space_eq_wrapped (n : Nat) :
    ((3 * 4 + (1 + (n : Int)) * 8) % 2 ^ 32).toNat = wrapped_space n := by
  unfold wrapped_space
  omega

theorem put_fits (overflow : SIONBuffer → List Byte → SIONBuffer) (b : SIONBuffer)
    (bytes : List Byte) (h : b.data.length + bytes.length ≤ b.max_size) :
    b.put overflow bytes = { b with data := b.data ++ bytes } := by
  unfold SIONBuffer.put
  rw [if_pos h]

theorem put_max_size (overflow : SIONBuffer → List Byte → SIONBuffer)
    (hfixed : fixed_capacity overflow) (b : SIONBuffer) (bytes : List Byte) :
    (b.put overflow bytes).max_size = b.max_size := by
  unfold SIONBuffer.put
  split
  · rfl
  · exact (hfixed b bytes).1

theorem put_bound (overflow : SIONBuffer → List Byte → SIONBuffer)
    (hfixed : fixed_capacity overflow) (b : SIONBuffer) (bytes : List Byte)
    (h : b.data.length ≤ b.max_size) :
    (b.put overflow bytes).data.length ≤ (b.put overflow bytes).max_size := by
  rw [put_max_size overflow hfixed]
  unfold SIONBuffer.put
  split
  · simpa using ‹_›
  · exact (hfixed b bytes).2 h

theorem values_bytes_length {D : Type} (R : ObjectRepr D) (values : List D) :
    (values_bytes R values).length = 8 * values.length := by
  induction values with
  | nil => rfl
  | cons v vs ih =>
    simp only [values_bytes, List.length_append, R.double_size, ih, List.length_cons]
    omega

theorem foldl_put_fits {D : Type} (R : ObjectRepr D)
    (overflow : SIONBuffer → List Byte → SIONBuffer) (values : List D) (b : SIONBuffer)
    (h : b.data.length + 8 * values.length ≤ b.max_size) :
    values.foldl (fun b val => b.put overflow (R.double_bytes val)) b =
      { b with data := b.data ++ values_bytes R values } := by
  induction values generalizing b with
  | nil => simp [values_bytes]
  | cons v vs ih =>
    simp only [List.length_cons] at h
    rw [List.foldl_cons, put_fits overflow b _ (by rw [R.double_size]; omega), ih]
    · simp [values_bytes]
    · simp only [List.length_append, R.double_size]
      omega

theorem foldl_put_max_size {D : Type} (R : ObjectRepr D)
    (overflow : SIONBuffer → List Byte → SIONBuffer) (hfixed : fixed_capacity overflow)
    (values : List D) (b : SIONBuffer) :
    (values.foldl (fun b val => b.put overflow (R.double_bytes val)) b).max_size
      = b.max_size := by
  induction values generalizing b with
  | nil => rfl
  | cons v vs ih => rw [List.foldl_cons, ih, put_max_size overflow hfixed]

theorem foldl_put_bound {D : Type} (R : ObjectRepr D)
    (overflow : SIONBuffer → List Byte → SIONBuffer) (hfixed : fixed_capacity overflow)
    (values : List D) (b : SIONBuffer) (h : b.data.length ≤ b.max_size) :
    (values.foldl (fun b val => b.put overflow (R.double_bytes val)) b).data.length
      ≤ b.max_size := by
  induction values generalizing b with
  | nil => exact h
  | cons v vs ih =>
    rw [List.foldl_cons]
    have := ih (b.put overflow (R.double_bytes v)) (put_bound overflow hfixed b _ h)
    rwa [put_max_size overflow hfixed] at this

theorem foldl_fwrite {D : Type} (R : ObjectRepr D) (values : List D)
    (e : VirtualProcessEntry) :
    values.foldl (fun e val => sion_fwrite (R.double_bytes val) e) e =
      { e with file := e.file ++ values_bytes R values } := by
  induction values generalizing e with
  | nil => simp [values_bytes]
  | cons v vs ih =>
    rw [List.foldl_cons, ih]
    simp [values_bytes, sion_fwrite]

theorem put_chain {D : Type} (R : ObjectRepr D)
    (overflow : SIONBuffer → List Byte → SIONBuffer) (b : SIONBuffer) (g s n : Int) (t : D)
    (values : List D) (h : b.data.length + (20 + 8 * values.length) ≤ b.max_size) :
    values.foldl (fun b val => b.put overflow (R.double_bytes val))
        ((((b.put overflow (R.int_bytes g)).put overflow (R.int_bytes s)).put overflow
          (R.double_bytes t)).put overflow (R.int_bytes n)) =
      { b with data := b.data ++ (R.int_bytes g ++ R.int_bytes s ++ R.double_bytes t ++
          R.int_bytes n ++ values_bytes R values) } := by
  have h1 : b.put overflow (R.int_bytes g) = ⟨b.max_size, b.data ++ R.int_bytes g⟩ :=
    put_fits overflow b _ (by rw [R.int_size]; omega)
  have h2 : (⟨b.max_size, b.data ++ R.int_bytes g⟩ : SIONBuffer).put overflow
      (R.int_bytes s) = ⟨b.max_size, b.data ++ R.int_bytes g ++ R.int_bytes s⟩ :=
    put_fits overflow _ _ (by simp only [List.length_append, R.int_size]; omega)
  have h3 : (⟨b.max_size, b.data ++ R.int_bytes g ++ R.int_bytes s⟩ : SIONBuffer).put
      overflow (R.double_bytes t) =
      ⟨b.max_size, b.data ++ R.int_bytes g ++ R.int_bytes s ++ R.double_bytes t⟩ :=
    put_fits overflow _ _
      (by simp only [List.length_append, R.int_size, R.double_size]; omega)
  have h4 : (⟨b.max_size, b.data ++ R.int_bytes g ++ R.int_bytes s ++ R.double_bytes t⟩ :
      SIONBuffer).put overflow (R.int_bytes n) =
      ⟨b.max_size, b.data ++ R.int_bytes g ++ R.int_bytes s ++ R.double_bytes t ++
        R.int_bytes n⟩ :=
    put_fits overflow _ _
      (by simp only [List.length_append, R.int_size, R.double_size]; omega)
  rw [h1, h2, h3, h4, foldl_put_fits R overflow values _
    (by simp only [List.length_append, R.int_size, R.double_size]; omega)]
  simp

theorem write_values_step {D : Type} [Sub D] (R : ObjectRepr D)
    (overflow : SIONBuffer → List Byte → SIONBuffer) (e : VirtualProcessEntry)
    (gid : Nat) (event : Event D) (values : List D)
    (hinv : e.buffer.data.length ≤ e.buffer.max_size)
    (hrange : in_range e.buffer.max_size (.with_values gid event values)) :
    (SIONLogger.write_values R overflow e gid event values).file ++
        (SIONLogger.write_values R overflow e gid event values).buffer.data =
      e.file ++ e.buffer.data ++ event_record R (.with_values gid event values) ∧
    (SIONLogger.write_values R overflow e gid event values).buffer.max_size
      = e.buffer.max_size ∧
    (SIONLogger.write_values R overflow e gid event values).buffer.data.length
      ≤ e.buffer.max_size := by
  obtain ⟨hg, hs, hl, hpath⟩ := hrange
  have hn : to_int values.length = values.length :=
    to_int_of_lt _ (by omega)
  have hgid : to_int gid = gid := to_int_of_lt _ hg
  have hsend : to_int event.sender_gid = event.sender_gid := to_int_of_lt _ hs
  have hw := required_space_eq_wrapped values.length
  obtain ⟨file, ⟨cap, data⟩⟩ := e
  simp only at hinv hpath
  unfold SIONLogger.write_values event_record
  dsimp only
  rw [hn, hgid, hsend, hw]
  clear hn hgid hsend hw hg hs hl
  simp only [SIONBuffer.get_capacity, SIONBuffer.get_free, SIONBuffer.get_size]
  by_cases hcap : cap > wrapped_space values.length
  · have hfit : 3 * 4 + (1 + values.length) * 8 < 2 ^ 32 :=
      hpath.resolve_right (by omega)
    have hreq : wrapped_space values.length = 20 + 8 * values.length := by
      unfold wrapped_space
      rw [Nat.mod_eq_of_lt hfit]
      omega
    rw [hreq] at hcap ⊢
    clear hfit hreq hpath
    rw [if_pos hcap]
    by_cases hfree : cap - data.length < 20 + 8 * values.length
    · rw [if_pos hfree]
      simp only [flush, sion_fwrite, SIONBuffer.read, SIONBuffer.clear]
      rw [put_chain R overflow ⟨cap, []⟩ _ _ _ _ values
        (by simp only [List.length_nil]; omega)]
      refine ⟨rfl, rfl, ?_⟩
      simp only [List.nil_append, List.length_append, R.int_size, R.double_size,
        values_bytes_length]
      omega
    · rw [if_neg hfree]
      rw [put_chain R overflow ⟨cap, data⟩ _ _ _ _ values (by simp only; omega)]
      refine ⟨(List.append_assoc _ _ _).symm, rfl, ?_⟩
      simp only [List.length_append, R.int_size, R.double_size, values_bytes_length]
      omega
  · clear hpath
    rw [if_neg hcap]
    rw [foldl_fwrite]
    by_cases hsize : data.length > 0
    · rw [if_pos hsize]
      simp [flush, sion_fwrite, SIONBuffer.read, SIONBuffer.clear]
    · rw [if_neg hsize]
      have hd : data = [] := List.eq_nil_of_length_eq_zero (by omega)
      subst hd
      simp [sion_fwrite]

theorem write_step {D : Type} [Sub D] (R : ObjectRepr D)
    (overflow : SIONBuffer → List Byte → SIONBuffer) (e : VirtualProcessEntry)
    (gid : Nat) (event : Event D) (hinv : e.buffer.data.length ≤ e.buffer.max_size)
    (hrange : in_range e.buffer.max_size (.plain gid event)) :
    (SIONLogger.write R overflow e gid event).file ++
        (SIONLogger.write R overflow e gid event).buffer.data =
      e.file ++ e.buffer.data ++ event_record R (.plain gid event) ∧
    (SIONLogger.write R overflow e gid event).buffer.max_size = e.buffer.max_size ∧
    (SIONLogger.write R overflow e gid event).buffer.data.length ≤ e.buffer.max_size := by
  obtain ⟨hg, hs⟩ := hrange
  have hgid : to_int gid = gid := to_int_of_lt _ hg
  have hsend : to_int event.sender_gid = event.sender_gid := to_int_of_lt _ hs
  have hreq : (3 * 4 + 8) % 2 ^ 32 = 20 + 8 * ([] : List D).length := by norm_num
  have hchain := fun b h => put_chain R overflow b (gid : Int) (event.sender_gid : Int) 0
    (event.stamp_ms - event.offset) [] h
  simp only [List.foldl_nil, values_bytes, List.append_nil] at hchain
  obtain ⟨file, ⟨cap, data⟩⟩ := e
  simp only at hinv
  unfold SIONLogger.write event_record
  dsimp only
  rw [hreq, hgid, hsend]
  clear hreq hgid hsend hg hs
  simp only [SIONBuffer.get_capacity, SIONBuffer.get_free, SIONBuffer.get_size]
  by_cases hcap : cap > 20 + 8 * ([] : List D).length
  · rw [if_pos hcap]
    by_cases hfree : cap - data.length < 20 + 8 * ([] : List D).length
    · rw [if_pos hfree]
      simp only [flush, sion_fwrite, SIONBuffer.read, SIONBuffer.clear]
      rw [hchain ⟨cap, []⟩ (by simp only [List.length_nil] at hcap ⊢; omega)]
      refine ⟨rfl, rfl, ?_⟩
      simp only [List.nil_append, List.length_append, R.int_size, R.double_size]
      simp only [List.length_nil] at hcap
      omega
    · rw [if_neg hfree]
      rw [hchain ⟨cap, data⟩ (by simp only [List.length_nil] at hfree ⊢; omega)]
      refine ⟨(List.append_assoc _ _ _).symm, rfl, ?_⟩
      simp only [List.length_append, R.int_size, R.double_size]
      simp only [List.length_nil] at hfree
      omega
  · rw [if_neg hcap]
    by_cases hsize : data.length > 0
    · rw [if_pos hsize]
      simp [flush, sion_fwrite, SIONBuffer.read, SIONBuffer.clear]
    · rw [if_neg hsize]
      have hd : data = [] := List.eq_nil_of_length_eq_zero (by omega)
      subst hd
      simp [sion_fwrite]

theorem writes_cons {D : Type} [Sub D] (R : ObjectRepr D)
    (overflow : SIONBuffer → List Byte → SIONBuffer) (c : WriteCall D)
    (cs : List (WriteCall D)) (e : VirtualProcessEntry) :
    SIONLogger.writes R overflow (c :: cs) e =
      SIONLogger.writes R overflow cs
        (match c with
          | .plain gid event => SIONLogger.write R overflow e gid event
          | .with_values gid event values =>
              SIONLogger.write_values R overflow e gid event values) := by
  simp only [SIONLogger.writes, List.foldl_cons]

theorem writes_invariant {D : Type} [Sub D] (R : ObjectRepr D)
    (overflow : SIONBuffer → List Byte → SIONBuffer) (calls : List (WriteCall D))
    (e : VirtualProcessEntry) (hinv : e.buffer.data.length ≤ e.buffer.max_size)
    (hrange : ∀ c ∈ calls, in_range e.buffer.max_size c) :
    (SIONLogger.writes R overflow calls e).file ++
        (SIONLogger.writes R overflow calls e).buffer.data =
      e.file ++ e.buffer.data ++ event_records R calls ∧
    (SIONLogger.writes R overflow calls e).buffer.max_size = e.buffer.max_size ∧
    (SIONLogger.writes R overflow calls e).buffer.data.length ≤ e.buffer.max_size := by
  induction calls generalizing e with
  | nil => exact ⟨by simp [SIONLogger.writes, event_records], rfl, hinv⟩
  | cons c cs ih =>
    have hc := hrange c (List.mem_cons_self _ _)
    have hcs : ∀ d ∈ cs, in_range e.buffer.max_size d := fun d hd =>
      hrange d (List.mem_cons_of_mem _ hd)
    rw [writes_cons]
    cases c with
    | plain gid event =>
      obtain ⟨h1, h2, h3⟩ := write_step R overflow e gid event hinv hc
      obtain ⟨k1, k2, k3⟩ := ih (SIONLogger.write R overflow e gid event)
        (by rw [h2]; exact h3) (by rw [h2]; exact hcs)
      refine ⟨?_, by rw [k2, h2], by rw [← h2]; exact k3⟩
      rw [k1, h1, event_records, List.append_assoc]
    | with_values gid event values =>
      obtain ⟨h1, h2, h3⟩ := write_values_step R overflow e gid event values hinv hc
      obtain ⟨k1, k2, k3⟩ :=
        ih (SIONLogger.write_values R overflow e gid event values)
          (by rw [h2]; exact h3) (by rw [h2]; exact hcs)
      refine ⟨?_, by rw [k2, h2], by rw [← h2]; exact k3⟩
      rw [k1, h1, event_records, List.append_assoc]

/-- Conservation of records by `SIONLogger::write`, whatever the buffer does with
bytes that do not fit. For every buffer capacity and every finite sequence of
`write` calls on one virtual process in which every gid, sender gid and number of
values is a value of an `int`, and every record either has a size
`3 * sizeof( int ) + ( 1 + n_values ) * sizeof( double )` below `2 ^ 32` or is
sent to the direct-write path, starting from an empty buffer and an empty file:
the bytes written to the SION file followed by the bytes still held in the
buffer are the concatenation, in call order, of the events' records, whichever
path each call took; after `finalize` the file holds exactly these bytes and the
buffer is empty. -/
theorem writes_conserve_records {D : Type} [Sub D] (R : ObjectRepr D)
    (overflow : SIONBuffer → List Byte → SIONBuffer) (capacity : Nat)
    (calls : List (WriteCall D)) (hrange : ∀ c ∈ calls, in_range capacity c) :
    (SIONLogger.writes R overflow calls ⟨[], ⟨capacity, []⟩⟩).file ++
        (SIONLogger.writes R overflow calls ⟨[], ⟨capacity, []⟩⟩).buffer.data =
      event_records R calls ∧
    ( SIONLogger.finalize (SIONLogger.writes R overflow calls ⟨[], ⟨capacity, []⟩⟩)).file =
      event_records R calls ∧
    ( SIONLogger.finalize
        (SIONLogger.writes R overflow calls ⟨[], ⟨capacity, []⟩⟩)).buffer.data = [] := by
  obtain ⟨h1, _, _⟩ :=
    writes_invariant R overflow calls ⟨[], ⟨capacity, []⟩⟩ (Nat.zero_le _) hrange
  simp only [List.nil_append] at h1
  refine ⟨h1, ?_, ?_⟩
  · unfold SIONLogger.finalize
    split
    · simpa [flush, sion_fwrite, SIONBuffer.read] using h1
    · rename_i hs
      have hd : (SIONLogger.writes R overflow calls ⟨[], ⟨capacity, []⟩⟩).buffer.data
          = [] :=
        List.eq_nil_of_length_eq_zero (by simpa [SIONBuffer.get_size] using hs)
      rw [hd, List.append_nil] at h1
      exact h1
  · unfold SIONLogger.finalize
    split
    · rfl
    · rename_i hs
      exact List.eq_nil_of_length_eq_zero (by simpa [SIONBuffer.get_size] using hs)

/-- Witness of `writes_conserve_records`: capacity 30, a plain event (buffered), an
event with two values (its 36 bytes go the direct path after a flush) and a plain
event again. -/
theorem writes_conserve_records_witness :
    (SIONLogger.writes sample_repr drop_overflow
        [.plain 7 sample_event, .with_values 8 sample_event [1, 2], .plain 7 sample_event]
        ⟨[], ⟨30, []⟩⟩).file ++
      (SIONLogger.writes sample_repr drop_overflow
        [.plain 7 sample_event, .with_values 8 sample_event [1, 2], .plain 7 sample_event]
        ⟨[], ⟨30, []⟩⟩).buffer.data =
      event_records sample_repr
        [.plain 7 sample_event, .with_values 8 sample_event [1, 2], .plain 7 sample_event] ∧
    ( SIONLogger.finalize (SIONLogger.writes sample_repr drop_overflow
        [.plain 7 sample_event, .with_values 8 sample_event [1, 2], .plain 7 sample_event]
        ⟨[], ⟨30, []⟩⟩)).file =
      event_records sample_repr
        [.plain 7 sample_event, .with_values 8 sample_event [1, 2], .plain 7 sample_event] ∧
    ( SIONLogger.finalize (SIONLogger.writes sample_repr drop_overflow
        [.plain 7 sample_event, .with_values 8 sample_event [1, 2], .plain 7 sample_event]
        ⟨[], ⟨30, []⟩⟩)).buffer.data = [] :=
  writes_conserve_records sample_repr drop_overflow 30
    [.plain 7 sample_event, .with_values 8 sample_event [1, 2], .plain 7 sample_event]
    (by decide)

theorem write_values_buffered {D : Type} [Sub D] (R : ObjectRepr D)
    (overflow : SIONBuffer → List Byte → SIONBuffer) (hfixed : fixed_capacity overflow)
    (e : VirtualProcessEntry) (gid : Nat) (event : Event D) (values : List D)
    (hinv : e.buffer.data.length ≤ e.buffer.max_size)
    (hcap : e.buffer.max_size >
      ((3 * 4 + (1 + to_int values.length) * 8) % 2 ^ 32).toNat)
    (hfree : ¬ e.buffer.max_size - e.buffer.data.length <
      ((3 * 4 + (1 + to_int values.length) * 8) % 2 ^ 32).toNat) :
    (SIONLogger.write_values R overflow e gid event values).file = e.file ∧
    (SIONLogger.write_values R overflow e gid event values).buffer.data.length
      ≤ e.buffer.max_size := by
  unfold SIONLogger.write_values
  dsimp only
  simp only [SIONBuffer.get_capacity, SIONBuffer.get_free]
  rw [if_pos hcap, if_neg hfree]
  refine ⟨rfl, ?_⟩
  have h := foldl_put_bound R overflow hfixed values
    ((((e.buffer.put overflow (R.int_bytes (to_int gid))).put overflow
      (R.int_bytes (to_int event.sender_gid))).put overflow
      (R.double_bytes (event.stamp_ms - event.offset))).put overflow
      (R.int_bytes (to_int values.length)))
    (put_bound overflow hfixed _ _ (put_bound overflow hfixed _ _
      (put_bound overflow hfixed _ _ (put_bound overflow hfixed _ _ hinv))))
  simpa only [put_max_size overflow hfixed] using h

/-- C9, at the failing input: capacity 1024, empty buffer and empty file, one
`write` call with 536870911 values. The record has `2 ^ 32 + 12` bytes,
`unsigned int required_space` is 12, so the call takes the buffered path although
the record cannot fit: nothing is written to the file, and whatever a buffer of
fixed capacity does with the bytes that do not fit, it holds at most 1024 bytes
afterwards, so the file followed by the buffer is not the event's record. -/
theorem writes_wrapped_record_lost {D : Type} [Sub D] (R : ObjectRepr D)
    (overflow : SIONBuffer → List Byte → SIONBuffer) (hfixed : fixed_capacity overflow)
    (gid : Nat) (event : Event D) (values : List D) (hv : values.length = 536870911) :
    ((3 * 4 + (1 + to_int values.length) * 8) % 2 ^ 32).toNat = 12 ∧
    (event_records R [.with_values gid event values]).length = 2 ^ 32 + 12 ∧
    (SIONLogger.writes R overflow [.with_values gid event values]
      ⟨[], ⟨1024, []⟩⟩).file = [] ∧
    (SIONLogger.writes R overflow [.with_values gid event values]
      ⟨[], ⟨1024, []⟩⟩).buffer.data.length ≤ 1024 ∧
    (SIONLogger.writes R overflow [.with_values gid event values] ⟨[], ⟨1024, []⟩⟩).file ++
      (SIONLogger.writes R overflow [.with_values gid event values]
        ⟨[], ⟨1024, []⟩⟩).buffer.data ≠
      event_records R [.with_values gid event values] := by
  have hreq : ((3 * 4 + (1 + to_int values.length) * 8) % 2 ^ 32).toNat = 12 := by
    rw [hv, to_int_of_lt _ (by norm_num)]
    norm_num
    rfl
  obtain ⟨hfile, hbuf⟩ := write_values_buffered R overflow hfixed ⟨[], ⟨1024, []⟩⟩ gid event
    values (Nat.zero_le _) (by rw [hreq]; norm_num) (by rw [hreq]; norm_num)
  have hw : SIONLogger.writes R overflow [.with_values gid event values] ⟨[], ⟨1024, []⟩⟩ =
      SIONLogger.write_values R overflow ⟨[], ⟨1024, []⟩⟩ gid event values := by
    simp only [SIONLogger.writes, List.foldl_cons, List.foldl_nil]
  have hrec : (event_records R [.with_values gid event values]).length = 2 ^ 32 + 12 := by
    simp only [event_records, event_record, List.length_append, List.length_nil,
      values_bytes_length, R.int_size, R.double_size, hv]
    norm_num
  simp only at hbuf
  refine ⟨hreq, hrec, by rw [hw]; exact hfile, by rw [hw]; exact hbuf, ?_⟩
  intro h
  have hlen := congrArg List.length h
  rw [hrec, hw, List.length_append, hfile, List.length_nil] at hlen
  norm_num at hlen
  omega

/-- Witness of C9: the sample layout, a buffer that does not store the bytes that do
not fit, and 536870911 values equal to 0. -/
theorem writes_huge_record_lost :
    ((3 * 4 + (1 + to_int (List.replicate 536870911 (0 : Int)).length) * 8) % 2 ^ 32).toNat
      = 12 ∧
    (event_records sample_repr
      [.with_values 1 sample_event (List.replicate 536870911 0)]).length = 2 ^ 32 + 12 ∧
    (SIONLogger.writes sample_repr drop_overflow
      [.with_values 1 sample_event (List.replicate 536870911 0)] ⟨[], ⟨1024, []⟩⟩).file = [] ∧
    (SIONLogger.writes sample_repr drop_overflow
      [.with_values 1 sample_event (List.replicate 536870911 0)]
      ⟨[], ⟨1024, []⟩⟩).buffer.data.length ≤ 1024 ∧
    (SIONLogger.writes sample_repr drop_overflow
        [.with_values 1 sample_event (List.replicate 536870911 0)] ⟨[], ⟨1024, []⟩⟩).file ++
      (SIONLogger.writes sample_repr drop_overflow
        [.with_values 1 sample_event (List.replicate 536870911 0)]
        ⟨[], ⟨1024, []⟩⟩).buffer.data ≠
      event_records sample_repr [.with_values 1 sample_event (List.replicate 536870911 0)] :=
  writes_wrapped_record_lost sample_repr drop_overflow (fun _ _ => ⟨rfl, fun h => h⟩)
    1 sample_event (List.replicate 536870911 0) (List.length_replicate _ _)

/-- The narrowing `const int sender = event.get_sender_gid()`: two events whose
sender gids differ by `2 ^ 32` are written as the same bytes, in every state and
on every path. -/
theorem write_narrows_sender {D : Type} [Sub D] (R : ObjectRepr D)
    (overflow : SIONBuffer → List Byte → SIONBuffer) (e : VirtualProcessEntry)
    (gid : Nat) (steps : Int) (ms offset : D) :
    SIONLogger.write R overflow e gid ⟨2 ^ 32 + 5, steps, ms, offset⟩ =
      SIONLogger.write R overflow e gid ⟨5, steps, ms, offset⟩ := by
  have h : to_int (2 ^ 32 + 5) = to_int 5 := by decide
  unfold SIONLogger.write
  simp only [h]

/-! ## The erfc gain function -/

theorem gauss_integrable : MeasureTheory.Integrable (fun t : ℝ => Real.exp (-t ^ 2)) := by
  simpa using integrable_exp_neg_mul_sq (one_pos : (0 : ℝ) < 1)

theorem erfc_antitone {x y : ℝ} (hxy : x ≤ y) : erfc y ≤ erfc x := by
  unfold erfc
  apply mul_le_mul_of_nonneg_left _ (by positivity)
  apply MeasureTheory.setIntegral_mono_set
  · exact gauss_integrable.integrableOn
  · exact Filter.Eventually.of_forall (fun t => (Real.exp_pos _).le)
  · exact (Set.Ioi_subset_Ioi hxy).eventuallyLE

theorem erfc_zero : erfc 0 = 1 := by
  unfold erfc
  have h := integral_gaussian_Ioi 1
  simp only [neg_mul, one_mul, div_one] at h
  rw [h]
  have hpi : Real.sqrt Real.pi ≠ 0 := (Real.sqrt_pos.mpr Real.pi_pos).ne'
  field_simp

theorem erfc_nonneg (x : ℝ) : 0 ≤ erfc x := by
  unfold erfc
  apply mul_nonneg (by positivity)
  exact MeasureTheory.setIntegral_nonneg measurableSet_Ioi (fun t _ => (Real.exp_pos _).le)

theorem erfc_le_two (x : ℝ) : erfc x ≤ 2 := by
  unfold erfc
  have h1 : ∫ t in Set.Ioi x, Real.exp (-t ^ 2) ≤ ∫ t : ℝ, Real.exp (-t ^ 2) :=
    MeasureTheory.setIntegral_le_integral gauss_integrable
      (Filter.Eventually.of_forall (fun t => (Real.exp_pos _).le))
  have h2 : ∫ t : ℝ, Real.exp (-t ^ 2) = Real.sqrt Real.pi := by
    have h := integral_gaussian 1
    simpa only [neg_mul, one_mul, div_one] using h
  rw [h2] at h1
  have hpi : 0 < Real.sqrt Real.pi := Real.sqrt_pos.mpr Real.pi_pos
  calc 2 / Real.sqrt Real.pi * ∫ t in Set.Ioi x, Real.exp (-t ^ 2)
      ≤ 2 / Real.sqrt Real.pi * Real.sqrt Real.pi :=
        mul_le_mul_of_nonneg_left h1 (by positivity)
    _ = 2 := by field_simp

theorem exp_neg_quarter_lower : (2 / 5 : ℝ) * Real.sqrt Real.pi ≤ Real.exp (-(1 / 4)) := by
  have he : Real.exp (1 / 4) * Real.exp (1 / 4) * (Real.exp (1 / 4) * Real.exp (1 / 4))
      = Real.exp 1 := by
    rw [← Real.exp_add, ← Real.exp_add]
    norm_num
  have hq : 0 < Real.exp (1 / 4) := Real.exp_pos _
  have hq2 : Real.exp (1 / 4) < 1.3 := by
    by_contra hc
    push_neg at hc
    have h2 : (1.3 : ℝ) * 1.3 ≤ Real.exp (1 / 4) * Real.exp (1 / 4) :=
      mul_le_mul hc hc (by norm_num) hq.le
    have h4 : (1.3 : ℝ) * 1.3 * (1.3 * 1.3) ≤ Real.exp (1 / 4) * Real.exp (1 / 4) *
        (Real.exp (1 / 4) * Real.exp (1 / 4)) :=
      mul_le_mul h2 h2 (by norm_num) (by positivity)
    rw [he] at h4
    have := Real.exp_one_lt_d9
    norm_num at h4
    linarith
  have hs : Real.sqrt Real.pi < 1.8 := by
    rw [Real.sqrt_lt' (by norm_num)]
    have := Real.pi_lt_d2
    norm_num
    linarith
  have hinv : Real.exp (-(1 / 4)) = (Real.exp (1 / 4))⁻¹ := Real.exp_neg _
  rw [hinv, le_inv_comm₀ (by positivity) hq]
  have h1 : (2 / 5 : ℝ) * Real.sqrt Real.pi ≤ 2 / 5 * 1.8 := by
    apply mul_le_mul_of_nonneg_left hs.le (by norm_num)
  have h0 : (0 : ℝ) < 2 / 5 * Real.sqrt Real.pi :=
    mul_pos (by norm_num) (Real.sqrt_pos.mpr Real.pi_pos)
  calc Real.exp (1 / 4) ≤ 1.3 := hq2.le
    _ ≤ (2 / 5 * 1.8 : ℝ)⁻¹ := by norm_num
    _ ≤ (2 / 5 * Real.sqrt Real.pi)⁻¹ := by
        apply inv_anti₀ h0 h1

theorem erfc_half_le : erfc (1 / 2) ≤ 3 / 5 := by
  have hsplit : ∫ t in Set.Ioi (0 : ℝ), Real.exp (-t ^ 2) =
      (∫ t in Set.Ioc (0 : ℝ) (1 / 2), Real.exp (-t ^ 2)) +
        ∫ t in Set.Ioi (1 / 2 : ℝ), Real.exp (-t ^ 2) := by
    rw [← Set.Ioc_union_Ioi_eq_Ioi (by norm_num : (0 : ℝ) ≤ 1 / 2)]
    exact MeasureTheory.setIntegral_union (Set.Ioc_disjoint_Ioi le_rfl) measurableSet_Ioi
      gauss_integrable.integrableOn gauss_integrable.integrableOn
  have hzero : ∫ t in Set.Ioi (0 : ℝ), Real.exp (-t ^ 2) = Real.sqrt Real.pi / 2 := by
    have h := integral_gaussian_Ioi 1
    simpa only [neg_mul, one_mul, div_one] using h
  have hlow : Real.exp (-(1 / 4)) * (1 / 2) ≤
      ∫ t in Set.Ioc (0 : ℝ) (1 / 2), Real.exp (-t ^ 2) := by
    have h := MeasureTheory.setIntegral_ge_of_const_le (μ := MeasureTheory.volume)
      (s := Set.Ioc (0 : ℝ) (1 / 2)) (f := fun t : ℝ => Real.exp (-t ^ 2))
      (c := Real.exp (-(1 / 4))) measurableSet_Ioc (by simp)
      (fun t ht => by
        apply Real.exp_le_exp.mpr
        have h1 : 0 < t := ht.1
        have h2 : t ≤ 1 / 2 := ht.2
        nlinarith)
      gauss_integrable.integrableOn
    simpa using h
  have hpi : 0 < Real.sqrt Real.pi := Real.sqrt_pos.mpr Real.pi_pos
  have hexp := exp_neg_quarter_lower
  unfold erfc
  have hI : ∫ t in Set.Ioi (1 / 2 : ℝ), Real.exp (-t ^ 2) ≤
      Real.sqrt Real.pi / 2 - Real.exp (-(1 / 4)) * (1 / 2) := by
    linarith
  calc 2 / Real.sqrt Real.pi * ∫ t in Set.Ioi (1 / 2 : ℝ), Real.exp (-t ^ 2)
      ≤ 2 / Real.sqrt Real.pi * (Real.sqrt Real.pi / 2 - Real.exp (-(1 / 4)) * (1 / 2)) :=
        mul_le_mul_of_nonneg_left hI (by positivity)
    _ = 1 - Real.exp (-(1 / 4)) / Real.sqrt Real.pi := by
        field_simp
        ring
    _ ≤ 3 / 5 := by
        have : (2 / 5 : ℝ) ≤ Real.exp (-(1 / 4)) / Real.sqrt Real.pi := by
          rw [le_div_iff₀ hpi]
          exact hexp
        linarith

/-- The gain of the erfc gain function lies in `[0, 1]`, and for `sigma_ > 0` it does
not increase as the summed input `h` grows: whenever the neuron is set active for
an input `h2`, it is set active for every smaller input `h1` under the same random
draw. -/
theorem erfc_gain_antitone (g : gainfunction_erfc) (hsigma : 0 < g.sigma_) (h1 h2 : ℝ)
    (h12 : h1 ≤ h2) :
    0 ≤ g.gain h2 ∧ g.gain h2 ≤ g.gain h1 ∧ g.gain h1 ≤ 1 ∧
    ∀ drand, g.call drand h2 = true → g.call drand h1 = true := by
  have hden : 0 < Real.sqrt 2 * g.sigma_ := mul_pos (Real.sqrt_pos.mpr (by norm_num)) hsigma
  have harg : (h1 - g.theta_) / (Real.sqrt 2 * g.sigma_) ≤
      (h2 - g.theta_) / (Real.sqrt 2 * g.sigma_) :=
    div_le_div_of_nonneg_right (by linarith) hden.le
  have hanti := erfc_antitone harg
  have hle : g.gain h2 ≤ g.gain h1 := by
    unfold gainfunction_erfc.gain
    linarith
  refine ⟨?_, hle, ?_, ?_⟩
  · unfold gainfunction_erfc.gain
    have := erfc_nonneg ((h2 - g.theta_) / (Real.sqrt 2 * g.sigma_))
    linarith
  · unfold gainfunction_erfc.gain
    have := erfc_le_two ((h1 - g.theta_) / (Real.sqrt 2 * g.sigma_))
    linarith
  · intro drand hd
    simp only [gainfunction_erfc.call, decide_eq_true_eq] at hd ⊢
    linarith

/-- Witness of `erfc_gain_antitone`: the default parameters `theta_ = 0`, `sigma_ = 1`
and the inputs 0 and 1. -/
theorem erfc_gain_antitone_witness :
    0 ≤ (⟨0, 1⟩ : gainfunction_erfc).gain 1 ∧
    (⟨0, 1⟩ : gainfunction_erfc).gain 1 ≤ (⟨0, 1⟩ : gainfunction_erfc).gain 0 ∧
    (⟨0, 1⟩ : gainfunction_erfc).gain 0 ≤ 1 ∧
    ∀ drand, (⟨0, 1⟩ : gainfunction_erfc).call drand 1 = true →
      (⟨0, 1⟩ : gainfunction_erfc).call drand 0 = true :=
  erfc_gain_antitone ⟨0, 1⟩ (by norm_num) 0 1 (by norm_num)

/-- C10, at the failing input: with the default parameters `theta_ = 0`,
`sigma_ = 1` and the random draw 0.3, `gainfunction_erfc::operator()` returns true
for the summed input `h = 0` and false for the larger input `h = 1`; the gain is
`0.5` at 0 and at most `0.3` at 1. -/
theorem erfc_gain_decreases_at_default :
    (⟨0, 1⟩ : gainfunction_erfc).call 0.3 0 = true ∧
    (⟨0, 1⟩ : gainfunction_erfc).call 0.3 1 = false ∧
    (⟨0, 1⟩ : gainfunction_erfc).gain 0 = 0.5 ∧
    (⟨0, 1⟩ : gainfunction_erfc).gain 1 ≤ 0.3 := by
  have h0 : (⟨0, 1⟩ : gainfunction_erfc).gain 0 = 0.5 := by
    simp only [gainfunction_erfc.gain, sub_zero, zero_div, erfc_zero, mul_one]
  have hs : Real.sqrt 2 ≤ 2 := by
    rw [Real.sqrt_le_left (by norm_num)]
    norm_num
  have hs0 : 0 < Real.sqrt 2 := Real.sqrt_pos.mpr (by norm_num)
  have harg : (1 / 2 : ℝ) ≤ (1 - 0) / (Real.sqrt 2 * 1) := by
    rw [sub_zero, mul_one, le_div_iff₀ hs0]
    linarith
  have h1 : (⟨0, 1⟩ : gainfunction_erfc).gain 1 ≤ 0.3 := by
    have e1 := erfc_antitone harg
    have e2 := erfc_half_le
    show (0.5 : ℝ) * erfc ((1 - 0) / (Real.sqrt 2 * 1)) ≤ 0.3
    have e3 : (0.5 : ℝ) * erfc ((1 - 0) / (Real.sqrt 2 * 1)) ≤ 0.5 * (3 / 5) :=
      mul_le_mul_of_nonneg_left (e1.trans e2) (by norm_num)
    refine e3.trans ?_
    norm_num
  refine ⟨?_, ?_, h0, h1⟩
  · simp only [gainfunction_erfc.call, decide_eq_true_eq, h0]
    norm_num
  · simp only [gainfunction_erfc.call, decide_eq_false_iff_not, not_lt]
    exact h1

/-! ## Failure of `DeviceData::set_status` -/

/-- C11, amended: when `DeviceData::set_status` fails, it fails with `BadProperty`,
the dictionary holds a non-zero `n_events`, and the device data after the failed
call is the device data before it except for the `time_in_steps_` flag, which
has taken the dictionary's `time_in_steps` when the dictionary holds one: the
senders, the three time vectors, the value names and every value column are
unchanged, and the whole device data is unchanged when the dictionary holds no
`time_in_steps` or holds the value the flag already has. -/
theorem set_status_failure_state {D : Type} (dd : DeviceData D) (d : StatusDict)
    (e : KernelException) (hfail : (dd.set_status d).2 = .error e) :
    e = .BadProperty
      "Property n_events can only be set to 0 (which clears all stored events)." ∧
    (∃ v, d.n_events = some v ∧ v ≠ 0) ∧
    (dd.set_status d).1 =
      { dd with time_in_steps_ := d.time_in_steps.getD dd.time_in_steps_ } ∧
    (dd.set_status d).1.senders_ = dd.senders_ ∧
    (dd.set_status d).1.times_ms_ = dd.times_ms_ ∧
    (dd.set_status d).1.times_steps_ = dd.times_steps_ ∧
    (dd.set_status d).1.times_offset_ = dd.times_offset_ ∧
    (dd.set_status d).1.double_value_names_ = dd.double_value_names_ ∧
    (dd.set_status d).1.double_values_ = dd.double_values_ ∧
    (dd.set_status d).1.long_value_names_ = dd.long_value_names_ ∧
    (dd.set_status d).1.long_values_ = dd.long_values_ ∧
    ((d.time_in_steps = none ∨ d.time_in_steps = some dd.time_in_steps_) →
      (dd.set_status d).1 = dd) := by
  cases hn : d.n_events with
  | none =>
    simp only [DeviceData.set_status, hn] at hfail
    exact absurd hfail (by simp)
  | some v =>
    by_cases hz : long_to_size_t v ≠ 0
    · have hv : v ≠ 0 := by
        intro h0
        rw [h0] at hz
        exact hz (by decide)
      simp only [DeviceData.set_status, hn, if_pos hz] at hfail ⊢
      have he : e = .BadProperty
          "Property n_events can only be set to 0 (which clears all stored events)." := by
        injection hfail with h
        exact h.symm
      cases ht : d.time_in_steps with
      | none =>
        refine ⟨he, ⟨v, rfl, hv⟩, ?_, rfl, rfl, rfl, rfl, rfl, rfl, rfl, rfl, fun _ => rfl⟩
        simp
      | some b =>
        refine ⟨he, ⟨v, rfl, hv⟩, ?_, rfl, rfl, rfl, rfl, rfl, rfl, rfl, rfl, ?_⟩
        · simp
        · intro h
          rcases h with h | h
          · simp at h
          · have hb : b = dd.time_in_steps_ := by simpa using h
            subst hb
            rfl
    · simp only [DeviceData.set_status, hn, if_neg hz] at hfail
      exact absurd hfail (by simp)

/-- Witness of C11 (amended): a device recording in ms with one stored event, and
the dictionary `time_in_steps = true`, `n_events = 7`: the call fails, and
afterwards only the flag differs. -/
theorem set_status_failure_state_witness :
    ((⟨false, [4], [15], [], [], ["V_m"], [[-70]], [], []⟩ : DeviceData Int).set_status
        ⟨some true, some 7⟩).2 = .error (.BadProperty
        "Property n_events can only be set to 0 (which clears all stored events).") ∧
    ((⟨false, [4], [15], [], [], ["V_m"], [[-70]], [], []⟩ : DeviceData Int).set_status
        ⟨some true, some 7⟩).1 =
      ⟨true, [4], [15], [], [], ["V_m"], [[-70]], [], []⟩ :=
  ⟨rfl, (set_status_failure_state
    (⟨false, [4], [15], [], [], ["V_m"], [[-70]], [], []⟩ : DeviceData Int)
    ⟨some true, some 7⟩
    (.BadProperty "Property n_events can only be set to 0 (which clears all stored events).")
    rfl).2.2.1⟩

/-- C11, counterexample: a device recording in ms (`time_in_steps_ = false`) with one
stored event, and the dictionary `time_in_steps = true`, `n_events = 7`. The call
fails with `BadProperty`, and the device data after it differs from the device
data before it: `time_in_steps_` is true. -/
theorem set_status_failure_changes_flag :
    ((⟨false, [4], [15], [], [], ["V_m"], [[-70]], [], []⟩ : DeviceData Int).set_status
        ⟨some true, some 7⟩).2 = .error (.BadProperty
        "Property n_events can only be set to 0 (which clears all stored events).") ∧
    ((⟨false, [4], [15], [], [], ["V_m"], [[-70]], [], []⟩ : DeviceData Int).set_status
        ⟨some true, some 7⟩).1 ≠
      (⟨false, [4], [15], [], [], ["V_m"], [[-70]], [], []⟩ : DeviceData Int) ∧
    ((⟨false, [4], [15], [], [], ["V_m"], [[-70]], [], []⟩ : DeviceData Int).set_status
        ⟨some true, some 7⟩).1.time_in_steps_ = true :=
  ⟨rfl, fun h => absurd (congrArg DeviceData.time_in_steps_ h) (by decide), by decide⟩

end nest
